import Mathlib

set_option maxRecDepth 8000

/-!
Verification development for an HD-wallet cryptography library (BIP-32 /
BIP-39 / BIP-44 core).  Byte sequences are modelled as List Nat with values
below 256; machine integers are Nat with explicit bounds or reductions.
Functions present in the Rust sources are translated from them; parts of the
engine whose sources are absent (only their tests, declarations and callers
exist) are modelled from the specification and marked as such in their doc
comments.
-/

/-! Section 1: byte and digit utilities. -/

/-- Value of a digit list, most significant digit first, in the given base. -/
def ofDigits (base : Nat) : List Nat → Nat
  | [] => 0
  | d :: ds => d * base ^ ds.length + ofDigits base ds

/-- Value of a big-endian byte list. -/
def natOfBeBytes (bs : List Nat) : Nat := ofDigits 256 bs

/-- Fuel-driven digit expansion of a number in the given base, most
significant digit first, with no leading zero digit.  Structural recursion on
the fuel keeps the definition kernel-reducible. -/
def toDigitsAux (base : Nat) : Nat → Nat → List Nat
  | 0, _ => []
  | fuel + 1, v =>
    if v = 0 then [] else toDigitsAux base fuel (v / base) ++ [v % base]

/-- Digit expansion of a number in the given base, most significant first. -/
def toDigits (base v : Nat) : List Nat := toDigitsAux base v v

/-- Fixed-width big-endian byte encoding of a number. -/
def beBytesOfNat : Nat → Nat → List Nat
  | 0, _ => []
  | l + 1, v => beBytesOfNat l (v / 256) ++ [v % 256]

theorem ofDigits_append_singleton (base : Nat) (ds : List Nat) (d : Nat) :
    ofDigits base (ds ++ [d]) = base * ofDigits base ds + d := by
  induction ds with
  | nil => simp [ofDigits]
  | cons x xs ih =>
    simp only [List.cons_append, ofDigits, List.append_eq, ih,
      List.length_append, List.length_cons, List.length_nil]
    ring

theorem toDigitsAux_zero (base : Nat) (fuel : Nat) :
    toDigitsAux base fuel 0 = [] := by
  cases fuel <;> simp [toDigitsAux]

theorem ofDigits_toDigitsAux (base : Nat) (hb : 2 ≤ base) :
    ∀ fuel v, v ≤ fuel → ofDigits base (toDigitsAux base fuel v) = v := by
  intro fuel
  induction fuel with
  | zero =>
    intro v hv
    interval_cases v
    simp [toDigitsAux, ofDigits]
  | succ f ih =>
    intro v hv
    by_cases h0 : v = 0
    · simp [h0, toDigitsAux, ofDigits]
    · have hdiv : v / base < v := Nat.div_lt_self (Nat.pos_of_ne_zero h0) hb
      have hle : v / base ≤ f := by omega
      simp only [toDigitsAux, h0, if_false, ofDigits_append_singleton, ih _ hle]
      exact Nat.div_add_mod v base

theorem ofDigits_toDigits (base : Nat) (hb : 2 ≤ base) (v : Nat) :
    ofDigits base (toDigits base v) = v :=
  ofDigits_toDigitsAux base hb v v (Nat.le_refl v)

theorem mem_toDigitsAux_lt (base : Nat) (hb : 2 ≤ base) :
    ∀ fuel v, ∀ d ∈ toDigitsAux base fuel v, d < base := by
  intro fuel
  induction fuel with
  | zero => intro v d hd; simp [toDigitsAux] at hd
  | succ f ih =>
    intro v d hd
    by_cases h0 : v = 0
    · simp [h0, toDigitsAux] at hd
    · simp only [toDigitsAux, h0, if_false, List.mem_append,
        List.mem_singleton] at hd
      rcases hd with hd | hd
      · exact ih _ d hd
      · subst hd; exact Nat.mod_lt _ (by omega)

theorem ofDigits_eq_zero_head (base : Nat) (hb : 2 ≤ base) (x : Nat)
    (xs : List Nat) (h : ofDigits base (x :: xs) = 0) : x = 0 := by
  simp only [ofDigits] at h
  have hp : 0 < base ^ xs.length := pow_pos (by omega : (0 : Nat) < base) _
  have h1 : x * base ^ xs.length = 0 := by omega
  rcases Nat.mul_eq_zero.mp h1 with h2 | h2
  · exact h2
  · omega

theorem toDigitsAux_ne_nil (base : Nat) (fuel v : Nat) (h0 : v ≠ 0)
    (hle : v ≤ fuel) : toDigitsAux base fuel v ≠ [] := by
  cases fuel with
  | zero => omega
  | succ f => simp [toDigitsAux, h0]

theorem toDigitsAux_ofDigits (base : Nat) (hb : 2 ≤ base) (ds : List Nat)
    (hlt : ∀ d ∈ ds, d < base) (hhead : ds.head? ≠ some 0) :
    ∀ fuel, ofDigits base ds ≤ fuel →
      toDigitsAux base fuel (ofDigits base ds) = ds := by
  induction ds using List.reverseRecOn with
  | nil => intro fuel _; simpa [ofDigits] using toDigitsAux_zero base fuel
  | append_singleton xs d ih =>
    intro fuel hfuel
    rw [ofDigits_append_singleton] at hfuel ⊢
    by_cases hv : base * ofDigits base xs + d = 0
    · exfalso
      have hd0 : d = 0 := by omega
      have hq0 : ofDigits base xs = 0 := by
        have hbq : base * ofDigits base xs = 0 := by omega
        rcases Nat.mul_eq_zero.mp hbq with h | h
        · omega
        · exact h
      cases xs with
      | nil =>
        rw [List.nil_append, List.head?_cons, hd0] at hhead
        exact hhead rfl
      | cons x xs2 =>
        have hx : x = 0 := ofDigits_eq_zero_head base hb x xs2 hq0
        rw [List.cons_append, List.head?_cons, hx] at hhead
        exact hhead rfl
    · obtain ⟨f, rfl⟩ : ∃ f, fuel = f + 1 := by
        cases fuel with
        | zero => exact absurd (Nat.le_zero.mp hfuel) hv
        | succ f => exact ⟨f, rfl⟩
      have hdlt : d < base := hlt d (by simp)
      have hdiveq : (base * ofDigits base xs + d) / base = ofDigits base xs := by
        rw [Nat.mul_add_div (by omega : 0 < base)]
        simp [Nat.div_eq_of_lt hdlt]
      have hmodeq : (base * ofDigits base xs + d) % base = d := by
        rw [Nat.add_comm, Nat.add_mul_mod_self_left, Nat.mod_eq_of_lt hdlt]
      simp only [toDigitsAux, hv, if_false, hdiveq, hmodeq]
      congr 1
      apply ih
      · intro x hx; exact hlt x (by simp [hx])
      · cases xs with
        | nil => simp
        | cons x xs2 =>
          rw [List.cons_append, List.head?_cons] at hhead
          simpa using hhead
      · rcases Nat.eq_zero_or_pos (ofDigits base xs) with h | h
        · rw [h]; omega
        · have h2 : 2 * ofDigits base xs ≤ base * ofDigits base xs :=
            Nat.mul_le_mul_right _ hb
          omega

theorem head_toDigitsAux_ne_zero (base : Nat) (hb : 2 ≤ base) :
    ∀ fuel v, v ≠ 0 → v ≤ fuel →
      (toDigitsAux base fuel v).head? ≠ some 0 := by
  intro fuel
  induction fuel with
  | zero => intro v h0 hle; omega
  | succ f ih =>
    intro v h0 hle
    simp only [toDigitsAux, h0, if_false]
    by_cases hq : v / base = 0
    · have hvlt : v < base := by
        rcases Nat.lt_or_ge v base with h | h
        · exact h
        · exfalso
          have : 0 < v / base := Nat.div_pos h (by omega)
          omega
      rw [hq, toDigitsAux_zero, List.nil_append, List.head?_cons,
        Nat.mod_eq_of_lt hvlt]
      intro hcontra
      rw [Option.some.injEq] at hcontra
      exact h0 hcontra
    · have hdiv : v / base < v := Nat.div_lt_self (by omega) hb
      have hne := toDigitsAux_ne_nil base f (v / base) hq (by omega)
      have hh := ih (v / base) hq (by omega)
      cases hx : toDigitsAux base f (v / base) with
      | nil => exact absurd hx hne
      | cons y ys =>
        rw [hx] at hh
        rw [List.cons_append, List.head?_cons]
        rw [List.head?_cons] at hh
        exact hh

theorem length_beBytesOfNat (l v : Nat) : (beBytesOfNat l v).length = l := by
  induction l generalizing v with
  | zero => simp [beBytesOfNat]
  | succ k ih => simp [beBytesOfNat, ih]

theorem mem_beBytesOfNat_lt (l v : Nat) : ∀ b ∈ beBytesOfNat l v, b < 256 := by
  induction l generalizing v with
  | zero => intro b hb; simp [beBytesOfNat] at hb
  | succ k ih =>
    intro b hb
    simp only [beBytesOfNat, List.mem_append, List.mem_singleton] at hb
    rcases hb with hb | hb
    · exact ih _ b hb
    · subst hb; exact Nat.mod_lt _ (by omega)

theorem natOfBeBytes_beBytesOfNat (l v : Nat) (hv : v < 256 ^ l) :
    natOfBeBytes (beBytesOfNat l v) = v := by
  induction l generalizing v with
  | zero =>
    simp only [pow_zero, Nat.lt_one_iff] at hv
    simp [beBytesOfNat, natOfBeBytes, ofDigits, hv]
  | succ k ih =>
    have hdv : v / 256 < 256 ^ k := by
      rw [Nat.div_lt_iff_lt_mul (by omega : 0 < 256)]
      calc v < 256 ^ (k + 1) := hv
      _ = 256 ^ k * 256 := by rw [pow_succ]
    simp only [beBytesOfNat, natOfBeBytes, ofDigits_append_singleton]
    rw [show ofDigits 256 (beBytesOfNat k (v / 256)) =
      natOfBeBytes (beBytesOfNat k (v / 256)) from rfl, ih _ hdv]
    exact Nat.div_add_mod v 256

theorem beBytesOfNat_natOfBeBytes (bs : List Nat)
    (hb : ∀ b ∈ bs, b < 256) :
    beBytesOfNat bs.length (natOfBeBytes bs) = bs := by
  induction bs using List.reverseRecOn with
  | nil => simp [natOfBeBytes, ofDigits, beBytesOfNat]
  | append_singleton xs d ih =>
    have hd : d < 256 := hb d (by simp)
    have hxs : ∀ b ∈ xs, b < 256 := fun b hbmem => hb b (by simp [hbmem])
    have hlen : (xs ++ [d]).length = xs.length + 1 := by simp
    rw [hlen]
    simp only [natOfBeBytes, ofDigits_append_singleton]
    have hdiveq : (256 * ofDigits 256 xs + d) / 256 = ofDigits 256 xs := by
      rw [Nat.mul_add_div (by omega : 0 < 256)]
      simp [Nat.div_eq_of_lt hd]
    have hmodeq : (256 * ofDigits 256 xs + d) % 256 = d := by
      rw [Nat.add_comm, Nat.add_mul_mod_self_left, Nat.mod_eq_of_lt hd]
    simp only [beBytesOfNat, hdiveq, hmodeq]
    rw [show ofDigits 256 xs = natOfBeBytes xs from rfl]
    rw [ih hxs]

theorem natOfBeBytes_lt (bs : List Nat) (hb : ∀ b ∈ bs, b < 256) :
    natOfBeBytes bs < 256 ^ bs.length := by
  induction bs using List.reverseRecOn with
  | nil => simp [natOfBeBytes, ofDigits]
  | append_singleton xs d ih =>
    have hd : d < 256 := hb d (by simp)
    have hxs : ∀ b ∈ xs, b < 256 := fun b hbmem => hb b (by simp [hbmem])
    have h1 := ih hxs
    have hlen : (xs ++ [d]).length = xs.length + 1 := by simp
    rw [hlen, pow_succ]
    simp only [natOfBeBytes, ofDigits_append_singleton] at h1 ⊢
    have : 256 * ofDigits 256 xs + 256 ≤ 256 * 256 ^ xs.length := by
      have := Nat.succ_le_of_lt h1
      calc 256 * ofDigits 256 xs + 256 = 256 * (ofDigits 256 xs + 1) := by ring
      _ ≤ 256 * 256 ^ xs.length := Nat.mul_le_mul_left _ this
    omega

/-! Section 2: hash primitives.  The specification treats hmac_sha512,
sha256 and ripemd160 as the hash primitive contract supplied by the host
cryptographic library; they are modelled here from their published
standards (FIPS 180-4 and the RIPEMD-160 reference), executable over byte
lists with word arithmetic done in Nat modulo the word size. -/

/-- Mask for 32-bit words. -/
def m32 : Nat := 4294967296

/-- Mask for 64-bit words. -/
def m64 : Nat := 18446744073709551616

/-- Rotate a 32-bit word right. -/
def rotr32 (n x : Nat) : Nat := ((x >>> n) ||| (x <<< (32 - n))) % m32

/-- Rotate a 32-bit word left. -/
def rotl32 (n x : Nat) : Nat := ((x <<< n) ||| (x >>> (32 - n))) % m32

/-- Rotate a 64-bit word right. -/
def rotr64 (n x : Nat) : Nat := ((x >>> n) ||| (x <<< (64 - n))) % m64

/-- Big-endian 32-bit words of a byte list (groups of four). -/
def beWords32 : List Nat → List Nat
  | b0 :: b1 :: b2 :: b3 :: rest =>
    (((b0 * 256 + b1) * 256 + b2) * 256 + b3) :: beWords32 rest
  | _ => []

/-- Big-endian 64-bit words of a byte list (groups of eight). -/
def beWords64 : List Nat → List Nat
  | b0 :: b1 :: b2 :: b3 :: b4 :: b5 :: b6 :: b7 :: rest =>
    (((((((b0 * 256 + b1) * 256 + b2) * 256 + b3) * 256 + b4) * 256 + b5) *
      256 + b6) * 256 + b7) :: beWords64 rest
  | _ => []

/-- Little-endian 32-bit words of a byte list (groups of four). -/
def leWords32 : List Nat → List Nat
  | b0 :: b1 :: b2 :: b3 :: rest =>
    (b0 + 256 * (b1 + 256 * (b2 + 256 * b3))) :: leWords32 rest
  | _ => []

/-- SHA-256 round constants. -/
def k256 : List Nat :=
  [1116352408, 1899447441, 3049323471, 3921009573, 961987163, 1508970993,
   2453635748, 2870763221, 3624381080, 310598401, 607225278, 1426881987,
   1925078388, 2162078206, 2614888103, 3248222580, 3835390401, 4022224774,
   264347078, 604807628, 770255983, 1249150122, 1555081692, 1996064986,
   2554220882, 2821834349, 2952996808, 3210313671, 3336571891, 3584528711,
   113926993, 338241895, 666307205, 773529912, 1294757372, 1396182291,
   1695183700, 1986661051, 2177026350, 2456956037, 2730485921, 2820302411,
   3259730800, 3345764771, 3516065817, 3600352804, 4094571909, 275423344,
   430227734, 506948616, 659060556, 883997877, 958139571, 1322822218,
   1537002063, 1747873779, 1955562222, 2024104815, 2227730452, 2361852424,
   2428436474, 2756734187, 3204031479, 3329325298]

/-- SHA-256 initial hash value. -/
def h256init : List Nat :=
  [1779033703, 3144134277, 1013904242, 2773480762, 1359893119, 2600822924,
   528734635, 1541459225]

/-- SHA-256 message schedule: extend sixteen words to sixty-four. -/
def schedule256 (ws : List Nat) : List Nat :=
  (List.range 48).foldl
    (fun w _ =>
      let nn := w.length
      let s0 :=
        let x := w.getD (nn - 15) 0
        (rotr32 7 x) ^^^ (rotr32 18 x) ^^^ (x >>> 3)
      let s1 :=
        let x := w.getD (nn - 2) 0
        (rotr32 17 x) ^^^ (rotr32 19 x) ^^^ (x >>> 10)
      w ++ [(w.getD (nn - 16) 0 + s0 + w.getD (nn - 7) 0 + s1) % m32])
    ws

/-- One SHA-256 round on the eight working words. -/
def step256 (st : List Nat) (kw : Nat × Nat) : List Nat :=
  let a := st.getD 0 0
  let b := st.getD 1 0
  let c := st.getD 2 0
  let d := st.getD 3 0
  let e := st.getD 4 0
  let f := st.getD 5 0
  let g := st.getD 6 0
  let h := st.getD 7 0
  let bigS1 := (rotr32 6 e) ^^^ (rotr32 11 e) ^^^ (rotr32 25 e)
  let ch := (e &&& f) ^^^ ((e ^^^ (m32 - 1)) &&& g)
  let t1 := (h + bigS1 + ch + kw.1 + kw.2) % m32
  let bigS0 := (rotr32 2 a) ^^^ (rotr32 13 a) ^^^ (rotr32 22 a)
  let maj := (a &&& b) ^^^ (a &&& c) ^^^ (b &&& c)
  let t2 := (bigS0 + maj) % m32
  [(t1 + t2) % m32, a, b, c, (d + t1) % m32, e, f, g]

/-- SHA-256 compression of one sixteen-word block into the chaining state. -/
def sha256Compress (H : List Nat) (block : List Nat) : List Nat :=
  let W := schedule256 block
  let st := (k256.zip W).foldl step256 H
  List.zipWith (fun x y => (x + y) % m32) H st

/-- Iterate SHA-256 compression over the word stream, sixteen words at a
time; the fuel bounds the number of blocks. -/
def sha256BlocksAux : Nat → List Nat → List Nat → List Nat
  | 0, st, _ => st
  | fuel + 1, st, ws =>
    if ws.length < 16 then st
    else sha256BlocksAux fuel (sha256Compress st (ws.take 16)) (ws.drop 16)

/-- SHA-256 padding: append 0x80, zeros and the 64-bit big-endian bit
length, reaching a multiple of sixty-four bytes. -/
def sha256Pad (msg : List Nat) : List Nat :=
  let z := (64 - ((msg.length + 9) % 64)) % 64
  msg ++ 0x80 :: List.replicate z 0 ++ beBytesOfNat 8 (8 * msg.length)

/-- SHA-256 of a byte list, as thirty-two bytes. -/
def sha256 (msg : List Nat) : List Nat :=
  let ws := beWords32 (sha256Pad msg)
  (sha256BlocksAux ws.length h256init ws).flatMap (beBytesOfNat 4)

/-- SHA-512 round constants. -/
def k512 : List Nat :=
  [4794697086780616226, 8158064640168781261, 13096744586834688815,
   16840607885511220156, 4131703408338449720, 6480981068601479193,
   10538285296894168987, 12329834152419229976, 15566598209576043074,
   1334009975649890238, 2608012711638119052, 6128411473006802146,
   8268148722764581231, 9286055187155687089, 11230858885718282805,
   13951009754708518548, 16472876342353939154, 17275323862435702243,
   1135362057144423861, 2597628984639134821, 3308224258029322869,
   5365058923640841347, 6679025012923562964, 8573033837759648693,
   10970295158949994411, 12119686244451234320, 12683024718118986047,
   13788192230050041572, 14330467153632333762, 15395433587784984357,
   489312712824947311, 1452737877330783856, 2861767655752347644,
   3322285676063803686, 5560940570517711597, 5996557281743188959,
   7280758554555802590, 8532644243296465576, 9350256976987008742,
   10552545826968843579, 11727347734174303076, 12113106623233404929,
   14000437183269869457, 14369950271660146224, 15101387698204529176,
   15463397548674623760, 17586052441742319658, 1182934255886127544,
   1847814050463011016, 2177327727835720531, 2830643537854262169,
   3796741975233480872, 4115178125766777443, 5681478168544905931,
   6601373596472566643, 7507060721942968483, 8399075790359081724,
   8693463985226723168, 9568029438360202098, 10144078919501101548,
   10430055236837252648, 11840083180663258601, 13761210420658862357,
   14299343276471374635, 14566680578165727644, 15097957966210449927,
   16922976911328602910, 17689382322260857208, 500013540394364858,
   748580250866718886, 1242879168328830382, 1977374033974150939,
   2944078676154940804, 3659926193048069267, 4368137639120453308,
   4836135668995329356, 5532061633213252278, 6448918945643986474,
   6902733635092675308, 7801388544844847127]

/-- SHA-512 initial hash value. -/
def h512init : List Nat :=
  [7640891576956012808, 13503953896175478587, 4354685564936845355,
   11912009170470909681, 5840696475078001361, 11170449401992604703,
   2270897969802886507, 6620516959819538809]

/-- SHA-512 message schedule: extend sixteen words to eighty. -/
def schedule512 (ws : List Nat) : List Nat :=
  (List.range 64).foldl
    (fun w _ =>
      let nn := w.length
      let s0 :=
        let x := w.getD (nn - 15) 0
        (rotr64 1 x) ^^^ (rotr64 8 x) ^^^ (x >>> 7)
      let s1 :=
        let x := w.getD (nn - 2) 0
        (rotr64 19 x) ^^^ (rotr64 61 x) ^^^ (x >>> 6)
      w ++ [(w.getD (nn - 16) 0 + s0 + w.getD (nn - 7) 0 + s1) % m64])
    ws

/-- One SHA-512 round on the eight working words. -/
def step512 (st : List Nat) (kw : Nat × Nat) : List Nat :=
  let a := st.getD 0 0
  let b := st.getD 1 0
  let c := st.getD 2 0
  let d := st.getD 3 0
  let e := st.getD 4 0
  let f := st.getD 5 0
  let g := st.getD 6 0
  let h := st.getD 7 0
  let bigS1 := (rotr64 14 e) ^^^ (rotr64 18 e) ^^^ (rotr64 41 e)
  let ch := (e &&& f) ^^^ ((e ^^^ (m64 - 1)) &&& g)
  let t1 := (h + bigS1 + ch + kw.1 + kw.2) % m64
  let bigS0 := (rotr64 28 a) ^^^ (rotr64 34 a) ^^^ (rotr64 39 a)
  let maj := (a &&& b) ^^^ (a &&& c) ^^^ (b &&& c)
  let t2 := (bigS0 + maj) % m64
  [(t1 + t2) % m64, a, b, c, (d + t1) % m64, e, f, g]

/-- SHA-512 compression of one sixteen-word block into the chaining state. -/
def sha512Compress (H : List Nat) (block : List Nat) : List Nat :=
  let W := schedule512 block
  let st := (k512.zip W).foldl step512 H
  List.zipWith (fun x y => (x + y) % m64) H st

/-- Iterate SHA-512 compression over the word stream, sixteen words at a
time; the fuel bounds the number of blocks. -/
def sha512BlocksAux : Nat → List Nat → List Nat → List Nat
  | 0, st, _ => st
  | fuel + 1, st, ws =>
    if ws.length < 16 then st
    else sha512BlocksAux fuel (sha512Compress st (ws.take 16)) (ws.drop 16)

/-- SHA-512 padding: append 0x80, zeros and the 128-bit big-endian bit
length, reaching a multiple of one hundred twenty-eight bytes. -/
def sha512Pad (msg : List Nat) : List Nat :=
  let z := (128 - ((msg.length + 17) % 128)) % 128
  msg ++ 0x80 :: List.replicate z 0 ++ beBytesOfNat 16 (8 * msg.length)

/-- SHA-512 of a byte list, as sixty-four bytes. -/
def sha512 (msg : List Nat) : List Nat :=
  let ws := beWords64 (sha512Pad msg)
  (sha512BlocksAux ws.length h512init ws).flatMap (beBytesOfNat 8)

/-- HMAC-SHA512 with a key of at most one hundred twenty-eight bytes, which
covers every use in BIP-32 and BIP-39. -/
def hmacSha512 (key msg : List Nat) : List Nat :=
  let k0 := key ++ List.replicate (128 - key.length) 0
  sha512 ((k0.map (fun b => b ^^^ 0x5c)) ++
    sha512 ((k0.map (fun b => b ^^^ 0x36)) ++ msg))

/-- RIPEMD-160 message word selection, left line, eighty steps. -/
def rmdRL : List Nat :=
  [0, 1, 2, 3, 4, 5, 6, 7, 8, 9, 10, 11, 12, 13, 14, 15,
   7, 4, 13, 1, 10, 6, 15, 3, 12, 0, 9, 5, 2, 14, 11, 8,
   3, 10, 14, 4, 9, 15, 8, 1, 2, 7, 0, 6, 13, 11, 5, 12,
   1, 9, 11, 10, 0, 8, 12, 4, 13, 3, 7, 15, 14, 5, 6, 2,
   4, 0, 5, 9, 7, 12, 2, 10, 14, 1, 3, 8, 11, 6, 15, 13]

/-- RIPEMD-160 message word selection, right line, eighty steps. -/
def rmdRR : List Nat :=
  [5, 14, 7, 0, 9, 2, 11, 4, 13, 6, 15, 8, 1, 10, 3, 12,
   6, 11, 3, 7, 0, 13, 5, 10, 14, 15, 8, 12, 4, 9, 1, 2,
   15, 5, 1, 3, 7, 14, 6, 9, 11, 8, 12, 2, 10, 0, 4, 13,
   8, 6, 4, 1, 3, 11, 15, 0, 5, 12, 2, 13, 9, 7, 10, 14,
   12, 15, 10, 4, 1, 5, 8, 7, 6, 2, 13, 14, 0, 3, 9, 11]

/-- RIPEMD-160 rotation amounts, left line. -/
def rmdSL : List Nat :=
  [11, 14, 15, 12, 5, 8, 7, 9, 11, 13, 14, 15, 6, 7, 9, 8,
   7, 6, 8, 13, 11, 9, 7, 15, 7, 12, 15, 9, 11, 7, 13, 12,
   11, 13, 6, 7, 14, 9, 13, 15, 14, 8, 13, 6, 5, 12, 7, 5,
   11, 12, 14, 15, 14, 15, 9, 8, 9, 14, 5, 6, 8, 6, 5, 12,
   9, 15, 5, 11, 6, 8, 13, 12, 5, 12, 13, 14, 11, 8, 5, 6]

/-- RIPEMD-160 rotation amounts, right line. -/
def rmdSR : List Nat :=
  [8, 9, 9, 11, 13, 15, 15, 5, 7, 7, 8, 11, 14, 14, 12, 6,
   9, 13, 15, 7, 12, 8, 9, 11, 7, 7, 12, 7, 6, 15, 13, 11,
   9, 7, 15, 11, 8, 6, 6, 14, 12, 13, 5, 14, 13, 13, 7, 5,
   15, 5, 8, 11, 14, 14, 6, 14, 6, 9, 12, 9, 12, 5, 15, 8,
   8, 5, 12, 9, 12, 5, 14, 6, 8, 13, 6, 5, 15, 13, 11, 11]

/-- RIPEMD-160 step function selected by round number. -/
def rmdF (j x y z : Nat) : Nat :=
  if j < 16 then x ^^^ y ^^^ z
  else if j < 32 then (x &&& y) ||| (((m32 - 1) ^^^ x) &&& z)
  else if j < 48 then (x ||| ((m32 - 1) ^^^ y)) ^^^ z
  else if j < 64 then (x &&& z) ||| (y &&& ((m32 - 1) ^^^ z))
  else x ^^^ (y ||| ((m32 - 1) ^^^ z))

/-- RIPEMD-160 additive constants, left line, by round number. -/
def rmdKL (j : Nat) : Nat :=
  if j < 16 then 0
  else if j < 32 then 0x5a827999
  else if j < 48 then 0x6ed9eba1
  else if j < 64 then 0x8f1bbcdc
  else 0xa953fd4e

/-- RIPEMD-160 additive constants, right line, by round number. -/
def rmdKR (j : Nat) : Nat :=
  if j < 16 then 0x50a28be6
  else if j < 32 then 0x5c4dd124
  else if j < 48 then 0x6d703ef3
  else if j < 64 then 0x7a6d76e9
  else 0

/-- One RIPEMD-160 line step: the five registers, the round number, the
selection and shift tables, the step-function selector and the
round-constant function. -/
def rmdStep (X : List Nat) (ff : Nat → Nat → Nat → Nat → Nat)
    (kf : Nat → Nat) (rt st : List Nat)
    (regs : List Nat) (j : Nat) : List Nat :=
  let a := regs.getD 0 0
  let b := regs.getD 1 0
  let c := regs.getD 2 0
  let d := regs.getD 3 0
  let e := regs.getD 4 0
  let t := rotl32 (st.getD j 0)
    ((a + ff j b c d + X.getD (rt.getD j 0) 0 + kf j) % m32)
  [e, (t + e) % m32, b, rotl32 10 c, d]

/-- RIPEMD-160 compression of one sixteen-word block.  The right line
applies the step functions in reverse order. -/
def rmdCompress (H : List Nat) (X : List Nat) : List Nat :=
  let lhs := (List.range 80).foldl (rmdStep X rmdF rmdKL rmdRL rmdSL) H
  let rhs := (List.range 80).foldl
    (rmdStep X (fun j => rmdF (79 - j)) rmdKR rmdRR rmdSR) H
  let h0 := H.getD 0 0
  let h1 := H.getD 1 0
  let h2 := H.getD 2 0
  let h3 := H.getD 3 0
  let h4 := H.getD 4 0
  [(h1 + lhs.getD 2 0 + rhs.getD 3 0) % m32,
   (h2 + lhs.getD 3 0 + rhs.getD 4 0) % m32,
   (h3 + lhs.getD 4 0 + rhs.getD 0 0) % m32,
   (h4 + lhs.getD 0 0 + rhs.getD 1 0) % m32,
   (h0 + lhs.getD 1 0 + rhs.getD 2 0) % m32]

/-- Iterate RIPEMD-160 compression over the word stream. -/
def rmdBlocksAux : Nat → List Nat → List Nat → List Nat
  | 0, st, _ => st
  | fuel + 1, st, ws =>
    if ws.length < 16 then st
    else rmdBlocksAux fuel (rmdCompress st (ws.take 16)) (ws.drop 16)

/-- Little-endian four-byte encoding of a 32-bit word. -/
def leBytesOfWord (w : Nat) : List Nat :=
  [w % 256, w / 256 % 256, w / 65536 % 256, w / 16777216 % 256]

/-- RIPEMD-160 padding: append 0x80, zeros and the 64-bit little-endian bit
length, reaching a multiple of sixty-four bytes. -/
def rmdPad (msg : List Nat) : List Nat :=
  let z := (64 - ((msg.length + 9) % 64)) % 64
  msg ++ 0x80 :: List.replicate z 0 ++
    (beBytesOfNat 8 (8 * msg.length)).reverse

/-- RIPEMD-160 of a byte list, as twenty bytes. -/
def ripemd160 (msg : List Nat) : List Nat :=
  let ws := leWords32 (rmdPad msg)
  let hinit := [0x67452301, 0xefcdab89, 0x98badcfe, 0x10325476, 0xc3d2e1f0]
  (rmdBlocksAux ws.length hinit ws).flatMap leBytesOfWord

/-- HASH160: RIPEMD-160 of SHA-256, used for key fingerprints. -/
def hash160 (msg : List Nat) : List Nat := ripemd160 (sha256 msg)

/-! Section 3: secp256k1 curve primitives.  The specification treats the
curve as an external collaborator with a fixed interface; the concrete
field and group operations are modelled here over Nat with explicit
reduction modulo the field prime, using affine coordinates. -/

/-- The secp256k1 field prime. -/
def secpP : Nat :=
  0xfffffffffffffffffffffffffffffffffffffffffffffffffffffffefffffc2f

/-- The secp256k1 group order. -/
def secpN : Nat :=
  0xfffffffffffffffffffffffffffffffebaaedce6af48a03bbfd25e8cd0364141

/-- Generator x coordinate. -/
def secpGx : Nat :=
  0x79be667ef9dcbbac55a06295ce870b07029bfcdb2dce28d959f2815b16f81798

/-- Generator y coordinate. -/
def secpGy : Nat :=
  0x483ada7726a3c4655da4fbfc0e1108a8fd17b448a68554199c47d08ffb10d4b8

/-- Fuel-driven modular exponentiation by squaring; structural recursion on
the fuel keeps it kernel-reducible. -/
def powModAux : Nat → Nat → Nat → Nat → Nat
  | 0, _, _, m => 1 % m
  | fuel + 1, b, e, m =>
    if e = 0 then 1 % m
    else
      let h := powModAux fuel ((b * b) % m) (e / 2) m
      if e % 2 = 1 then (b * h) % m else h

/-- Modular exponentiation. -/
def powMod (b e m : Nat) : Nat := powModAux (e + 1) b e m

/-- Modular inverse in the secp256k1 field by the little theorem of Fermat. -/
def fieldInv (x : Nat) : Nat := powMod x (secpP - 2) secpP

/-- Subtraction modulo the field prime on reduced representatives. -/
def fieldSub (a b : Nat) : Nat := (a + secpP - b % secpP) % secpP

/-- A point of the curve: none is the point at infinity, otherwise affine
coordinates reduced modulo the field prime. -/
abbrev CPoint : Type := Option (Nat × Nat)

/-- Doubling of an affine point. -/
def pDouble : CPoint → CPoint
  | none => none
  | some (x, y) =>
    if y % secpP = 0 then none
    else
      let l := (3 * x % secpP * x % secpP) * fieldInv (2 * y % secpP) % secpP
      let x2 := fieldSub (l * l % secpP) ((2 * x) % secpP)
      let y2 := fieldSub (l * fieldSub x x2 % secpP) y
      some (x2, y2)

/-- Addition of affine points. -/
def pAdd : CPoint → CPoint → CPoint
  | none, q => q
  | p, none => p
  | some (x1, y1), some (x2, y2) =>
    if x1 % secpP = x2 % secpP then
      if (y1 + y2) % secpP = 0 then none else pDouble (some (x1, y1))
    else
      let l := fieldSub y2 y1 * fieldInv (fieldSub x2 x1) % secpP
      let x3 := fieldSub (fieldSub (l * l % secpP) x1) x2
      let y3 := fieldSub (l * fieldSub x1 x3 % secpP) y1
      some (x3, y3)

/-- Doubling in Jacobian coordinates (curve coefficient a is zero); the
point at infinity is represented with a zero z coordinate. -/
def jDouble : Nat × Nat × Nat → Nat × Nat × Nat
  | (x1, y1, z1) =>
  if y1 % secpP = 0 then (0, 1, 0)
  else
    let a := (x1 * x1) % secpP
    let b := (y1 * y1) % secpP
    let c := (b * b) % secpP
    let s := (4 * x1 % secpP * b) % secpP
    let m := (3 * a) % secpP
    let x3 := fieldSub ((m * m) % secpP) ((2 * s) % secpP)
    let y3 := fieldSub ((m * fieldSub s x3) % secpP) ((8 * c) % secpP)
    let z3 := (2 * y1 % secpP * z1) % secpP
    (x3, y3, z3)

/-- Addition in Jacobian coordinates. -/
def jAdd : Nat × Nat × Nat → Nat × Nat × Nat → Nat × Nat × Nat
  | (x1, y1, z1), (x2, y2, z2) =>
  if z1 % secpP = 0 then (x2, y2, z2)
  else if z2 % secpP = 0 then (x1, y1, z1)
  else
    let z1z1 := (z1 * z1) % secpP
    let z2z2 := (z2 * z2) % secpP
    let u1 := (x1 * z2z2) % secpP
    let u2 := (x2 * z1z1) % secpP
    let s1 := (y1 * z2z2 % secpP * z2) % secpP
    let s2 := (y2 * z1z1 % secpP * z1) % secpP
    if u1 = u2 then
      if s1 = s2 then jDouble (x1, y1, z1) else (0, 1, 0)
    else
      let h := fieldSub u2 u1
      let hh := (h * h) % secpP
      let hhh := (h * hh) % secpP
      let r := fieldSub s2 s1
      let v := (u1 * hh) % secpP
      let x3 := fieldSub (fieldSub ((r * r) % secpP) hhh) ((2 * v) % secpP)
      let y3 := fieldSub ((r * fieldSub v x3) % secpP) ((s1 * hhh) % secpP)
      let z3 := (h * z1 % secpP * z2) % secpP
      (x3, y3, z3)

/-- Fuel-driven Jacobian double-and-add ladder. -/
def secpMulJAux : Nat → Nat → Nat × Nat × Nat → Nat × Nat × Nat
  | 0, _, _ => (0, 1, 0)
  | fuel + 1, k, p =>
    if k = 0 then (0, 1, 0)
    else
      let h := secpMulJAux fuel (k / 2) (jDouble p)
      if k % 2 = 1 then jAdd h p else h

/-- Conversion from Jacobian to affine coordinates. -/
def jToAffine : Nat × Nat × Nat → CPoint
  | (x, y, z) =>
  if z % secpP = 0 then none
  else
    let zi := fieldInv z
    let zi2 := (zi * zi) % secpP
    some ((x * zi2) % secpP, (y * zi2 % secpP * zi) % secpP)

/-- Scalar multiplication on the curve, through the Jacobian ladder. -/
def secpMul (k : Nat) (p : CPoint) : CPoint :=
  match p with
  | none => none
  | some q => jToAffine (secpMulJAux (k + 1) k (q.1, q.2, 1))

/-- The secp256k1 generator point. -/
def secpG : CPoint := some (secpGx, secpGy)

/-- Compressed SEC1 serialization of a point: parity byte then the x
coordinate big-endian.  The point at infinity never reaches serialization
in the engine; it is mapped to thirty-three zero bytes. -/
def serializeCPoint : CPoint → List Nat
  | none => List.replicate 33 0
  | some (x, y) => (if y % 2 = 0 then 2 else 3) :: beBytesOfNat 32 x

/-! Section 4: Base58Check. -/

/-- The standard Base58 alphabet. -/
def b58Alphabet : List Char :=
  "123456789ABCDEFGHJKLMNPQRSTUVWXYZabcdefghijkmnopqrstuvwxyz".data

/-- Base58 encoding of a byte list: one leading alphabet-zero character per
leading zero byte, then the base-58 digits of the value. -/
def b58Encode (bytes : List Nat) : List Char :=
  let z := (bytes.takeWhile (fun b => b == 0)).length
  List.replicate z '1' ++
    (toDigits 58 (natOfBeBytes bytes)).map (fun d => b58Alphabet.getD d '1')

/-- Value of a Base58 character, scanning the alphabet. -/
def b58ValAux : List Char → Nat → Char → Option Nat
  | [], _, _ => none
  | a :: rest, i, c => if a = c then some i else b58ValAux rest (i + 1) c

/-- Value of a Base58 character. -/
def b58ValOf (c : Char) : Option Nat := b58ValAux b58Alphabet 0 c

/-- Base58 decoding: leading alphabet-zero characters become zero bytes and
the remaining digits are converted to their minimal big-endian bytes.
Returns none when a character is not in the alphabet. -/
def b58Decode (chars : List Char) : Option (List Nat) :=
  let z := (chars.takeWhile (fun c => c == '1')).length
  ((chars.drop z).mapM b58ValOf).map
    (fun ds => List.replicate z 0 ++ toDigits 256 (ofDigits 58 ds))

/-! Section 5: BIP-32 data model.  The error enumeration, network table,
private-key wrapper and extended-key records.  PrivateKey and its
operations are translated from private_key.rs; ExtendedPublicKey and its
constructor and accessors from extended_public_key.rs; the remaining types
are modelled from the specification because their sources are absent. -/

/-- Networks supported by the engine (network.rs is absent from the
sources; modelled from the spec, which fixes Bitcoin mainnet and testnet). -/
inductive Network
  | bitcoinMainnet
  | bitcoinTestnet
deriving DecidableEq

/-- Extended-key flavour selector for the version-byte table. -/
inductive KeyType
  | privateType
  | publicType
deriving DecidableEq

/-- Version bytes per network and key flavour, from the spec table. -/
def versionBytes : Network → KeyType → List Nat
  | .bitcoinMainnet, .privateType => [0x04, 0x88, 0xad, 0xe4]
  | .bitcoinMainnet, .publicType => [0x04, 0x88, 0xb2, 0x1e]
  | .bitcoinTestnet, .privateType => [0x04, 0x35, 0x83, 0x94]
  | .bitcoinTestnet, .publicType => [0x04, 0x35, 0x87, 0xcf]

/-- Reverse lookup in the version-byte table. -/
def versionLookup (bs : List Nat) : Option (Network × KeyType) :=
  if bs = [0x04, 0x88, 0xad, 0xe4] then some (.bitcoinMainnet, .privateType)
  else if bs = [0x04, 0x88, 0xb2, 0x1e] then some (.bitcoinMainnet, .publicType)
  else if bs = [0x04, 0x35, 0x83, 0x94] then some (.bitcoinTestnet, .privateType)
  else if bs = [0x04, 0x35, 0x87, 0xcf] then some (.bitcoinTestnet, .publicType)
  else none

/-- The flat bip32 error taxonomy of the spec, with reason strings where
private_key.rs visibly carries them.  The error source file is absent, so
the variants follow the spec taxonomy (error kinds are what the claims
speak about). -/
inductive Bip32Error
  | invalidSeed (reason : String)
  | invalidPrivateKey (reason : String)
  | invalidPublicKey (reason : String)
  | hardenedFromPublic
  | depthOverflow
  | invalidChildIndex
  | invalidPath (reason : String)
  | invalidChecksum
  | invalidLength
  | unknownVersion
  | invalidPrivLeadByte
  | invalidPubLeadByte
  | invalidMasterMetadata
  | keyDerivationRetry
  | keyOverflow
deriving DecidableEq

/-- Kind test: is this an InvalidPrivateKey error. -/
def Bip32Error.isInvalidPrivateKey : Bip32Error → Bool
  | .invalidPrivateKey _ => true
  | _ => false

/-- Kind test: is this an InvalidSeed error. -/
def Bip32Error.isInvalidSeed : Bip32Error → Bool
  | .invalidSeed _ => true
  | _ => false

/-- Stable display text of a bip32 error; the Display implementation is in
the absent error source file, so only stability matters here, not the
exact wording. -/
def Bip32Error.display : Bip32Error → String
  | .invalidSeed r => "Invalid seed: " ++ r
  | .invalidPrivateKey r => "Invalid private key: " ++ r
  | .invalidPublicKey r => "Invalid public key: " ++ r
  | .hardenedFromPublic => "Cannot derive hardened child from public key"
  | .depthOverflow => "Depth overflow"
  | .invalidChildIndex => "Invalid child index"
  | .invalidPath r => "Invalid path: " ++ r
  | .invalidChecksum => "Invalid checksum"
  | .invalidLength => "Invalid length"
  | .unknownVersion => "Unknown version"
  | .invalidPrivLeadByte => "Invalid private key prefix byte"
  | .invalidPubLeadByte => "Invalid public key prefix byte"
  | .invalidMasterMetadata => "Invalid master metadata"
  | .keyDerivationRetry => "Key derivation retry"
  | .keyOverflow => "Key overflow"

/-- A secp256k1 private key: a scalar in the open interval from zero to the
group order, as guaranteed by the wrapped SecretKey in private_key.rs. -/
def PrivateKey : Type := {k : Nat // 0 < k ∧ k < secpN}

instance : DecidableEq PrivateKey := by
  unfold PrivateKey
  infer_instance

theorem secpN_pos : 0 < secpN := by decide

/-- Thirty-two-byte big-endian encoding of the scalar (to_bytes in
private_key.rs, via SecretKey secret_bytes). -/
def PrivateKey.to_bytes (k : PrivateKey) : List Nat := beBytesOfNat 32 k.val

/-- PrivateKey::from_bytes from private_key.rs: exactly thirty-two bytes
encoding a scalar in the valid range, otherwise an InvalidPrivateKey error.
The reason string of the in-range failure comes from the external
secp256k1 library display and is modelled by a stable placeholder. -/
def PrivateKey.from_bytes (bytes : List Nat) : Except Bip32Error PrivateKey :=
  if bytes.length ≠ 32 then
    .error (.invalidPrivateKey
      ("Private key must be 32 bytes, got " ++ toString bytes.length))
  else
    let k := natOfBeBytes bytes
    if h : 0 < k ∧ k < secpN then .ok ⟨k, h⟩
    else .error (.invalidPrivateKey
      "Invalid secp256k1 private key: malformed or out-of-range secret key")

/-- PrivateKey::tweak_add from private_key.rs: length check, scalar range
check on the tweak, modular addition, KeyOverflow when the sum vanishes. -/
def PrivateKey.tweak_add (k : PrivateKey) (tweak : List Nat) :
    Except Bip32Error PrivateKey :=
  if tweak.length ≠ 32 then
    .error (.invalidPrivateKey
      ("Tweak must be 32 bytes, got " ++ toString tweak.length))
  else
    let t := natOfBeBytes tweak
    if secpN ≤ t then .error (.invalidPrivateKey "Invalid tweak scalar")
    else
      let s := (k.val + t) % secpN
      if h : s = 0 then .error .keyOverflow
      else .ok ⟨s, ⟨Nat.pos_of_ne_zero h, Nat.mod_lt _ secpN_pos⟩⟩

/-- Debug formatting of a private key from private_key.rs: a fixed
placeholder independent of the scalar. -/
def PrivateKey.debugFmt (_ : PrivateKey) : String := "PrivateKey([REDACTED])"

/-- Curve operation of private_key.rs public_key: the compressed point of
the scalar. -/
def PrivateKey.public_key (k : PrivateKey) : CPoint := secpMul k.val secpG

/-- Extended private key record, per the spec data model (the source file
extended_private_key.rs is absent; only its tests and callers exist). -/
structure ExtendedPrivateKey where
  network : Network
  depth : Nat
  parent_fingerprint : List Nat
  child_number : Nat
  chain_code : List Nat
  private_key : PrivateKey
deriving DecidableEq

/-- Extended public key record from extended_public_key.rs, polymorphic in
the representation of the point so the same engine serves both the
abstract-contract theorems and the concrete curve. -/
structure ExtendedPublicKey (Point : Type) where
  network : Network
  depth : Nat
  parent_fingerprint : List Nat
  child_number : Nat
  chain_code : List Nat
  public_key : Point
deriving DecidableEq

/-- The hardened threshold constant from extended_public_key.rs. -/
def ExtendedPublicKey.HARDENED_BIT : Nat := 0x80000000

/-- ExtendedPublicKey::new from extended_public_key.rs: a plain record
constructor, total, with no validation of any argument. -/
def ExtendedPublicKey.new {Point : Type} (network : Network) (depth : Nat)
    (parent_fingerprint : List Nat) (child_number : Nat)
    (chain_code : List Nat) (public_key : Point) :
    ExtendedPublicKey Point :=
  { network := network, depth := depth,
    parent_fingerprint := parent_fingerprint, child_number := child_number,
    chain_code := chain_code, public_key := public_key }

/-! Section 6: the derivation engine.  The spec treats the curve primitives
as an external collaborator with a fixed interface; the engine is therefore
parameterized by that interface together with the hash contract.  The
engine source files are absent from the repository, so CKDpriv, CKDpub,
master-from-seed and the path walker are modelled from the specification,
section 4.1. -/

/-- The curve primitive contract consumed by the engine (spec section 6):
scalar-to-point, point tweak by a scalar (none on the identity), and
compressed serialization. -/
structure CurveOps (Point : Type) where
  pubFromScalar : Nat → Point
  pubTweakAdd : Point → Nat → Option Point
  serializeCompressed : Point → List Nat

/-- The hash primitive contract consumed by the engine: HMAC-SHA512 and
HASH160. -/
structure HashOps where
  hmac : List Nat → List Nat → List Nat
  h160 : List Nat → List Nat

/-- The concrete hash contract instance. -/
def realHashOps : HashOps := { hmac := hmacSha512, h160 := hash160 }

/-- The concrete curve contract instance over affine secp256k1 points. -/
def realCurveOps : CurveOps CPoint :=
  { pubFromScalar := fun k => secpMul k secpG,
    pubTweakAdd := fun p t =>
      match pAdd p (secpMul t secpG) with
      | none => none
      | some q => some q,
    serializeCompressed := serializeCPoint }

/-- Modelled from the spec: CKDpriv (spec 4.1), private parent to private
child.  Hardened indices feed the padded private key into HMAC, normal
indices the compressed public key; an out-of-range IL or a vanishing child
scalar surfaces the skip rule as KeyDerivationRetry; a parent at depth 255
is a hard DepthOverflow. -/
def ckdPriv {Point : Type} (co : CurveOps Point) (ho : HashOps)
    (k : ExtendedPrivateKey) (i : Nat) : Except Bip32Error ExtendedPrivateKey :=
  if 255 ≤ k.depth then .error .depthOverflow
  else
    let data :=
      if 0x80000000 ≤ i then 0 :: k.private_key.to_bytes ++ beBytesOfNat 4 i
      else co.serializeCompressed (co.pubFromScalar k.private_key.val) ++
        beBytesOfNat 4 i
    let I := ho.hmac k.chain_code data
    let IL := natOfBeBytes (I.take 32)
    let IR := (I.drop 32).take 32
    if secpN ≤ IL then .error .keyDerivationRetry
    else
      let ck := (IL + k.private_key.val) % secpN
      if h : ck = 0 then .error .keyDerivationRetry
      else .ok
        { network := k.network, depth := k.depth + 1,
          parent_fingerprint :=
            (ho.h160 (co.serializeCompressed
              (co.pubFromScalar k.private_key.val))).take 4,
          child_number := i, chain_code := IR,
          private_key := ⟨ck, ⟨Nat.pos_of_ne_zero h, Nat.mod_lt _ secpN_pos⟩⟩ }

/-- Modelled from the spec: CKDpub (spec 4.1), public parent to public
child, normal indices only.  A hardened index is a hard
HardenedFromPublic error before anything else is examined. -/
def ckdPub {Point : Type} (co : CurveOps Point) (ho : HashOps)
    (K : ExtendedPublicKey Point) (i : Nat) :
    Except Bip32Error (ExtendedPublicKey Point) :=
  if 0x80000000 ≤ i then .error .hardenedFromPublic
  else if 255 ≤ K.depth then .error .depthOverflow
  else
    let data := co.serializeCompressed K.public_key ++ beBytesOfNat 4 i
    let I := ho.hmac K.chain_code data
    let IL := natOfBeBytes (I.take 32)
    let IR := (I.drop 32).take 32
    if secpN ≤ IL then .error .keyDerivationRetry
    else
      match co.pubTweakAdd K.public_key IL with
      | none => .error .keyDerivationRetry
      | some cp => .ok
        { network := K.network, depth := K.depth + 1,
          parent_fingerprint :=
            (ho.h160 (co.serializeCompressed K.public_key)).take 4,
          child_number := i, chain_code := IR, public_key := cp }

/-- Modelled from the spec: conversion of an extended private key to the
corresponding extended public key (same metadata and chain code, point of
the scalar as key material). -/
def ExtendedPrivateKey.toExtendedPublicKey {Point : Type}
    (co : CurveOps Point) (k : ExtendedPrivateKey) : ExtendedPublicKey Point :=
  { network := k.network, depth := k.depth,
    parent_fingerprint := k.parent_fingerprint,
    child_number := k.child_number, chain_code := k.chain_code,
    public_key := co.pubFromScalar k.private_key.val }

/-- Modelled from the spec: the path walker over a private extended key,
folding CKDpriv over the index list. -/
def derivePathPriv {Point : Type} (co : CurveOps Point) (ho : HashOps)
    (k : ExtendedPrivateKey) :
    List Nat → Except Bip32Error ExtendedPrivateKey
  | [] => .ok k
  | i :: rest =>
    match ckdPriv co ho k i with
    | .error e => .error e
    | .ok k2 => derivePathPriv co ho k2 rest

/-- Modelled from the spec: the path walker over a public extended key,
folding CKDpub over the index list. -/
def derivePathPub {Point : Type} (co : CurveOps Point) (ho : HashOps)
    (K : ExtendedPublicKey Point) :
    List Nat → Except Bip32Error (ExtendedPublicKey Point)
  | [] => .ok K
  | i :: rest =>
    match ckdPub co ho K i with
    | .error e => .error e
    | .ok K2 => derivePathPub co ho K2 rest

/-- Modelled from the spec: master key generation from a seed (spec 4.1),
as ExtendedPrivateKey::from_seed whose source file is absent.  Seed length
must lie between sixteen and sixty-four bytes, the HMAC key is the ASCII
string Bitcoin seed, and an out-of-range IL is InvalidSeed. -/
def ExtendedPrivateKey.from_seed (ho : HashOps) (seed : List Nat)
    (net : Network) : Except Bip32Error ExtendedPrivateKey :=
  if seed.length < 16 ∨ 64 < seed.length then
    .error (.invalidSeed "Seed length must be between 16 and 64 bytes")
  else
    let I := ho.hmac ("Bitcoin seed".data.map Char.toNat) seed
    let IL := natOfBeBytes (I.take 32)
    let IR := (I.drop 32).take 32
    if h : IL = 0 ∨ secpN ≤ IL then
      .error (.invalidSeed "Master key material out of range")
    else .ok
      { network := net, depth := 0, parent_fingerprint := [0, 0, 0, 0],
        child_number := 0, chain_code := IR,
        private_key := ⟨IL, by push_neg at h; exact ⟨Nat.pos_of_ne_zero h.1, h.2⟩⟩ }

/-! Section 7: the BIP-44 wallet, translated from wallet.rs.  The bip44
error enumeration source is absent; its variants are read off the
constructors used in wallet.rs. -/

/-- The bip44 error type as used by wallet.rs. -/
inductive Bip44Error
  | invalidSeed (msg : String)
  | keyDerivation (msg : String)
  | invalidMnemonic (msg : String)
deriving DecidableEq

/-- Kind test: is this a bip44 InvalidSeed error. -/
def Bip44Error.isInvalidSeed : Bip44Error → Bool
  | .invalidSeed _ => true
  | _ => false

/-- The wallet record from wallet.rs: master key and network. -/
structure Wallet where
  master_key : ExtendedPrivateKey
  network : Network
deriving DecidableEq

/-- Wallet::from_seed from wallet.rs: an empty seed is rejected with the
bip44 InvalidSeed error; any failure of the bip32 master derivation is
wrapped as a KeyDerivation error carrying the inner display text. -/
def Wallet.from_seed (ho : HashOps) (seed : List Nat) (network : Network) :
    Except Bip44Error Wallet :=
  if seed.isEmpty then .error (.invalidSeed "Seed cannot be empty")
  else
    match ExtendedPrivateKey.from_seed ho seed network with
    | Except.error e =>
      Except.error (Bip44Error.keyDerivation
        ("Failed to derive master key: " ++ e.display))
    | Except.ok mkey => Except.ok (Wallet.mk mkey network)

/-! Section 8: the extended-key codec, modelled from spec section 4.2 (the
serialization source files are absent).  Layout: version, depth, parent
fingerprint, child index, chain code, key data; then Base58Check. -/

/-- Validity of a thirty-three-byte compressed public key: length, lead
byte, byte range, x below the field prime, and the x coordinate admitting
a square root of the curve equation with matching square (on-curve test
via the Euler criterion, usable because the field prime is three modulo
four). -/
def validCompressedPub (bs : List Nat) : Bool :=
  decide (bs.length = 33) &&
  (match bs.head? with
   | some b => decide (b = 2) || decide (b = 3)
   | none => false) &&
  bs.tail.all (fun x => decide (x < 256)) &&
  (let x := natOfBeBytes bs.tail
   decide (x < secpP) &&
   (let ys := (powMod x 3 secpP + 7) % secpP
    let y := powMod ys ((secpP + 1) / 4) secpP
    decide (y * y % secpP = ys)))

/-- Modelled from the spec: the PublicKey wrapper (public_key.rs is
absent), a validated thirty-three-byte compressed SEC1 point. -/
def PublicKey : Type := {bs : List Nat // validCompressedPub bs = true}

instance : DecidableEq PublicKey := by
  unfold PublicKey
  infer_instance

/-- Serialized seventy-eight-byte payload of an extended private key. -/
def serialize78Priv (k : ExtendedPrivateKey) : List Nat :=
  versionBytes k.network .privateType ++
    k.depth :: (k.parent_fingerprint ++ beBytesOfNat 4 k.child_number ++
      k.chain_code ++ 0 :: k.private_key.to_bytes)

/-- Serialized seventy-eight-byte payload of an extended public key, given
a serializer for the point representation. -/
def serialize78Pub {Point : Type} (ser : Point → List Nat)
    (K : ExtendedPublicKey Point) : List Nat :=
  versionBytes K.network .publicType ++
    K.depth :: (K.parent_fingerprint ++ beBytesOfNat 4 K.child_number ++
      K.chain_code ++ ser K.public_key)

/-- Base58Check: payload, four checksum bytes of double SHA-256, Base58. -/
def base58Check (payload : List Nat) : List Char :=
  b58Encode (payload ++ (sha256 (sha256 payload)).take 4)

/-- Base58Check encoding of an extended private key (its to_string). -/
def encodeXprv (k : ExtendedPrivateKey) : List Char :=
  base58Check (serialize78Priv k)

/-- Base58Check encoding of an extended public key (its to_string). -/
def encodeXpub {Point : Type} (ser : Point → List Nat)
    (K : ExtendedPublicKey Point) : List Char :=
  base58Check (serialize78Pub ser K)

/-- An extended key of either flavour, for the codec. -/
abbrev AnyExtendedKey := Sum ExtendedPrivateKey (ExtendedPublicKey PublicKey)

/-- Encoding of either flavour of extended key; the public flavour carries
its bytes in the validated wrapper. -/
def encodeAnyExtendedKey : AnyExtendedKey → List Char
  | .inl k => encodeXprv k
  | .inr K => encodeXpub Subtype.val K

/-- Modelled from the spec: parsing of the eighty-two decoded bytes of an
extended key with all parse-time validations of spec section 4.2, in the
order of its table: length, checksum, version, master metadata, key-data
lead byte, key material. -/
def parseExtendedKeyBytes (bytes : List Nat) :
    Except Bip32Error AnyExtendedKey :=
  if bytes.length ≠ 82 then .error .invalidLength
  else if bytes.drop 78 ≠ (sha256 (sha256 (bytes.take 78))).take 4 then
    .error .invalidChecksum
  else
    match versionLookup ((bytes.take 78).take 4) with
    | none => .error .unknownVersion
    | some (net, kt) =>
      if ((bytes.take 78).drop 4).headD 0 = 0 ∧
          (((bytes.take 78).drop 5).take 4 ≠ [0, 0, 0, 0] ∨
            natOfBeBytes (((bytes.take 78).drop 9).take 4) ≠ 0) then
        .error .invalidMasterMetadata
      else
        match kt with
        | .privateType =>
          if (((bytes.take 78).drop 45).take 33).headD 1 ≠ 0 then
            .error .invalidPrivLeadByte
          else
            match PrivateKey.from_bytes
                ((((bytes.take 78).drop 45).take 33).tail) with
            | .error e => .error e
            | .ok pk => .ok (.inl
                { network := net, depth := ((bytes.take 78).drop 4).headD 0,
                  parent_fingerprint := ((bytes.take 78).drop 5).take 4,
                  child_number :=
                    natOfBeBytes (((bytes.take 78).drop 9).take 4),
                  chain_code := ((bytes.take 78).drop 13).take 32,
                  private_key := pk })
        | .publicType =>
          if ¬((((bytes.take 78).drop 45).take 33).headD 0 = 2 ∨
              (((bytes.take 78).drop 45).take 33).headD 0 = 3) then
            .error .invalidPubLeadByte
          else if h : validCompressedPub (((bytes.take 78).drop 45).take 33) =
              true then
            .ok (.inr
              { network := net, depth := ((bytes.take 78).drop 4).headD 0,
                parent_fingerprint := ((bytes.take 78).drop 5).take 4,
                child_number :=
                  natOfBeBytes (((bytes.take 78).drop 9).take 4),
                chain_code := ((bytes.take 78).drop 13).take 32,
                public_key := ⟨((bytes.take 78).drop 45).take 33, h⟩ })
          else .error (.invalidPublicKey "point not on curve")

/-- Modelled from the spec: Base58Check decoding of an extended key; a
Base58Check failure surfaces as InvalidChecksum per the spec error table. -/
def decodeExtendedKey (chars : List Char) :
    Except Bip32Error AnyExtendedKey :=
  match b58Decode chars with
  | none => .error .invalidChecksum
  | some bytes => parseExtendedKeyBytes bytes

/-! Section 9: BIP-39 mnemonics.  Mnemonic::new is translated from
mnemonic.rs; the word-count mapping and the upstream entropy-to-words
conversion live in absent sources and are modelled from the spec,
section 4.3. -/

namespace Bip39

/-- The ten wordlist languages fixed by the spec (language.rs is absent). -/
inductive Language
  | english
  | japanese
  | korean
  | spanish
  | chineseSimplified
  | chineseTraditional
  | french
  | italian
  | czech
  | portuguese
deriving DecidableEq

/-- Word counts of BIP-39 phrases. -/
inductive WordCount
  | twelve
  | fifteen
  | eighteen
  | twentyOne
  | twentyFour
deriving DecidableEq

/-- Numeric value of a word count. -/
def WordCount.toNat : WordCount → Nat
  | .twelve => 12
  | .fifteen => 15
  | .eighteen => 18
  | .twentyOne => 21
  | .twentyFour => 24

/-- The bip39 error taxonomy, from the spec and the variants visible in
mnemonic.rs tests. -/
inductive Bip39Error
  | invalidEntropyLength (length : Nat)
  | invalidWord
  | invalidWordCount
  | invalidChecksum
deriving DecidableEq

/-- Modelled from the spec: WordCount::from_entropy_length (word_count.rs
is absent): the five legal entropy byte lengths map to their word counts,
anything else is InvalidEntropyLength carrying the offending length. -/
def WordCount.from_entropy_length (n : Nat) : Except Bip39Error WordCount :=
  if n = 16 then .ok .twelve
  else if n = 20 then .ok .fifteen
  else if n = 24 then .ok .eighteen
  else if n = 28 then .ok .twentyOne
  else if n = 32 then .ok .twentyFour
  else .error (.invalidEntropyLength n)

/-- Bits of one byte, most significant first. -/
def byteBits (b : Nat) : List Bool :=
  [decide (b / 128 % 2 = 1), decide (b / 64 % 2 = 1),
   decide (b / 32 % 2 = 1), decide (b / 16 % 2 = 1),
   decide (b / 8 % 2 = 1), decide (b / 4 % 2 = 1),
   decide (b / 2 % 2 = 1), decide (b % 2 = 1)]

/-- Bit expansion of a byte list, most significant bit first per byte. -/
def bytesToBits (bs : List Nat) : List Bool := bs.flatMap byteBits

/-- Value of a bit list, most significant first. -/
def bitsToNat (bits : List Bool) : Nat :=
  bits.foldl (fun a b => 2 * a + (if b then 1 else 0)) 0

/-- Group a bit list into eleven-bit word indices; the fuel bounds the
number of groups. -/
def group11Aux : Nat → List Bool → List Nat
  | 0, _ => []
  | fuel + 1, bs =>
    if bs.length < 11 then []
    else bitsToNat (bs.take 11) :: group11Aux fuel (bs.drop 11)

/-- Group a bit list into eleven-bit word indices. -/
def group11 (bs : List Bool) : List Nat := group11Aux bs.length bs

/-- A BIP-39 mnemonic as stored by mnemonic.rs: the phrase (modelled as
the list of eleven-bit word indices into the language wordlist, the
concrete 2048-word lists being external compile-time data), the language,
the raw entropy and the word count. -/
structure Mnemonic where
  wordIndices : List Nat
  language : Language
  entropy : List Nat
  word_count : WordCount
deriving DecidableEq

/-- Mnemonic::new from mnemonic.rs: the entropy length is validated
through the word-count mapping, the upstream crate then converts entropy
plus the leading SHA-256 checksum bits into words (modelled from the spec
algorithm), and the entropy is stored as given. -/
def Mnemonic.new (entropy : List Nat) (language : Language) :
    Except Bip39Error Mnemonic :=
  match WordCount.from_entropy_length entropy.length with
  | .error e => .error e
  | .ok wc =>
    let checksumBits :=
      (bytesToBits (sha256 entropy)).take (entropy.length * 8 / 32)
    let indices := group11 (bytesToBits entropy ++ checksumBits)
    Except.ok (Mnemonic.mk indices language entropy wc)

/-- Accessor word_count from mnemonic.rs. -/
def Mnemonic.wordCountOf (m : Mnemonic) : WordCount := m.word_count

end Bip39

/-! Section 10: concrete scenario material. -/

/-- The BIP-32 test vector 1 seed. -/
def testSeed1 : List Nat :=
  [0x00, 0x01, 0x02, 0x03, 0x04, 0x05, 0x06, 0x07,
   0x08, 0x09, 0x0a, 0x0b, 0x0c, 0x0d, 0x0e, 0x0f]

/-- String form of an extended private key (its Display in the sources). -/
def xprvStringOf (k : ExtendedPrivateKey) : String :=
  String.mk (encodeXprv k)

/-- String form of an extended public key over concrete curve points. -/
def xpubStringOf (K : ExtendedPublicKey CPoint) : String :=
  String.mk (encodeXpub serializeCPoint K)

/-! Section 11: claim theorems. -/

/-- C9: the Debug formatting of every valid private key is the fixed string
PrivateKey([REDACTED]), identical for any two private keys, so the debug
output reveals nothing about the scalar. -/
theorem privateKey_debug_redacted (k1 k2 : PrivateKey) :
    PrivateKey.debugFmt k1 = "PrivateKey([REDACTED])" ∧
    PrivateKey.debugFmt k1 = PrivateKey.debugFmt k2 :=
  ⟨rfl, rfl⟩

/-- C10: ExtendedPublicKey::new is total and performs no validation: for
every argument combination, including a hardened child number or depth zero
paired with a non-zero parent fingerprint or child index, construction
succeeds (the function is total by its type) and every accessor returns
exactly the corresponding argument; the depth-zero master-metadata
invariant is not enforced at construction. -/
theorem extendedPublicKey_new_unvalidated {Point : Type} (network : Network)
    (depth : Nat) (parent_fingerprint : List Nat) (child_number : Nat)
    (chain_code : List Nat) (public_key : Point) :
    (ExtendedPublicKey.new network depth parent_fingerprint child_number
      chain_code public_key).network = network ∧
    (ExtendedPublicKey.new network depth parent_fingerprint child_number
      chain_code public_key).depth = depth ∧
    (ExtendedPublicKey.new network depth parent_fingerprint child_number
      chain_code public_key).parent_fingerprint = parent_fingerprint ∧
    (ExtendedPublicKey.new network depth parent_fingerprint child_number
      chain_code public_key).child_number = child_number ∧
    (ExtendedPublicKey.new network depth parent_fingerprint child_number
      chain_code public_key).chain_code = chain_code ∧
    (ExtendedPublicKey.new network depth parent_fingerprint child_number
      chain_code public_key).public_key = public_key :=
  ⟨rfl, rfl, rfl, rfl, rfl, rfl⟩

/-- C2: deriving a hardened child from an extended public key fails with
HardenedFromPublic, for every curve and hash contract instance; and a path
whose normal prefix derives successfully fails at its first hardened
segment with the same error. -/
theorem derive_hardened_from_public_fails {Point : Type} (co : CurveOps Point)
    (ho : HashOps) (K : ExtendedPublicKey Point) (i : Nat)
    (hi : 2 ^ 31 ≤ i) :
    derivePathPub co ho K [i] = .error .hardenedFromPublic ∧
    (∀ pre rest Q, (∀ j ∈ pre, j < 2 ^ 31) →
      derivePathPub co ho K pre = .ok Q →
      derivePathPub co ho K (pre ++ i :: rest) =
        .error .hardenedFromPublic) := by
  have hbit : (0x80000000 : Nat) = 2 ^ 31 := by norm_num
  have hstep : ∀ K2 : ExtendedPublicKey Point,
      ckdPub co ho K2 i = .error .hardenedFromPublic := by
    intro K2
    unfold ckdPub
    rw [if_pos (by omega : 0x80000000 ≤ i)]
  constructor
  · unfold derivePathPub
    rw [hstep K]
  · intro pre rest Q
    induction pre generalizing K with
    | nil =>
      intro _ hQ
      simp only [List.nil_append]
      unfold derivePathPub
      rw [hstep K]
    | cons j pre2 ih =>
      intro hpre hQ
      simp only [List.cons_append]
      unfold derivePathPub at hQ ⊢
      cases hck : ckdPub co ho K j with
      | error e => rw [hck] at hQ; exact absurd hQ (by simp)
      | ok K2 =>
        rw [hck] at hQ
        exact ih K2 (fun x hx => hpre x (by simp [hx])) hQ

/-- Toy instance of the curve contract over scalars modulo the group
order, used to witness the contract-parametric theorems. -/
def toyCurveOps : CurveOps Nat :=
  { pubFromScalar := fun k => k % secpN,
    pubTweakAdd := fun p t =>
      let s := (p + t) % secpN
      if s = 0 then none else some s,
    serializeCompressed := fun p => 2 :: beBytesOfNat 32 p }

/-- A sample extended public key over the toy point representation. -/
def samplePubKey : ExtendedPublicKey Nat :=
  { network := .bitcoinMainnet, depth := 0,
    parent_fingerprint := [0, 0, 0, 0], child_number := 0,
    chain_code := List.replicate 32 0, public_key := 1 }

theorem derive_hardened_from_public_fails_witness :
    2 ^ 31 ≤ 2147483648 ∧
    derivePathPub toyCurveOps realHashOps samplePubKey [2147483648] =
      .error .hardenedFromPublic :=
  ⟨by norm_num,
    (derive_hardened_from_public_fails toyCurveOps realHashOps samplePubKey
      2147483648 (by norm_num)).1⟩

/-- C5: for a valid private key and a thirty-two-byte tweak below the group
order, tweak_add returns the key whose big-endian encoding is the modular
sum whenever that sum is non-zero, returns an error (KeyOverflow) when the
sum vanishes modulo the order, and rejects any tweak whose length is not
thirty-two bytes. -/
theorem tweak_add_spec (k : PrivateKey) (t : List Nat)
    (hlen : t.length = 32) (ht : natOfBeBytes t < secpN) :
    (((k.val + natOfBeBytes t) % secpN = 0 →
        PrivateKey.tweak_add k t = .error .keyOverflow) ∧
      ((k.val + natOfBeBytes t) % secpN ≠ 0 →
        ∃ r, PrivateKey.tweak_add k t = .ok r ∧
          r.to_bytes = beBytesOfNat 32 ((k.val + natOfBeBytes t) % secpN))) ∧
    (∀ t2 : List Nat, t2.length ≠ 32 →
      PrivateKey.tweak_add k t2 = .error (.invalidPrivateKey
        ("Tweak must be 32 bytes, got " ++ toString t2.length))) := by
  refine ⟨⟨?_, ?_⟩, ?_⟩
  · intro hz
    unfold PrivateKey.tweak_add
    rw [if_neg (by omega), if_neg (by omega), dif_pos hz]
  · intro hz
    unfold PrivateKey.tweak_add
    rw [if_neg (by omega), if_neg (by omega), dif_neg hz]
    exact ⟨_, rfl, rfl⟩
  · intro t2 h2
    unfold PrivateKey.tweak_add
    rw [if_pos h2]

/-- A sample private key with scalar one. -/
def pkOne : PrivateKey := ⟨1, by constructor <;> decide⟩

theorem tweak_add_spec_witness :
    (beBytesOfNat 32 2).length = 32 ∧
    natOfBeBytes (beBytesOfNat 32 2) < secpN ∧
    (∃ r, PrivateKey.tweak_add pkOne (beBytesOfNat 32 2) = .ok r ∧
      r.to_bytes = beBytesOfNat 32
        ((pkOne.val + natOfBeBytes (beBytesOfNat 32 2)) % secpN)) :=
  ⟨by decide, by decide,
    ((tweak_add_spec pkOne (beBytesOfNat 32 2) (by decide) (by decide)).1).2
      (by decide)⟩

/-- C7: PrivateKey::from_bytes succeeds exactly on thirty-two-byte inputs
whose big-endian value is a scalar in the open interval from zero to the
group order; every failure is an InvalidPrivateKey error; and on success
to_bytes returns the original bytes and the stored scalar is the decoded
value. -/
theorem from_bytes_spec (b : List Nat) (hb : ∀ x ∈ b, x < 256) :
    ((∃ k, PrivateKey.from_bytes b = .ok k) ↔
      (b.length = 32 ∧ 0 < natOfBeBytes b ∧ natOfBeBytes b < secpN)) ∧
    (∀ k, PrivateKey.from_bytes b = .ok k →
      k.val = natOfBeBytes b ∧ k.to_bytes = b) ∧
    (∀ e, PrivateKey.from_bytes b = .error e →
      e.isInvalidPrivateKey = true) := by
  refine ⟨⟨?_, ?_⟩, ?_, ?_⟩
  · rintro ⟨k, hk⟩
    unfold PrivateKey.from_bytes at hk
    by_cases hl : b.length ≠ 32
    · rw [if_pos hl] at hk; exact absurd hk (by simp)
    · rw [if_neg hl] at hk
      by_cases hr : 0 < natOfBeBytes b ∧ natOfBeBytes b < secpN
      · exact ⟨by omega, hr⟩
      · rw [dif_neg hr] at hk; exact absurd hk (by simp)
  · rintro ⟨hl, hr⟩
    unfold PrivateKey.from_bytes
    rw [if_neg (by omega), dif_pos ⟨hr.1, hr.2⟩]
    exact ⟨_, rfl⟩
  · intro k hk
    unfold PrivateKey.from_bytes at hk
    by_cases hl : b.length ≠ 32
    · rw [if_pos hl] at hk; exact absurd hk (by simp)
    · rw [if_neg hl] at hk
      by_cases hr : 0 < natOfBeBytes b ∧ natOfBeBytes b < secpN
      · rw [dif_pos hr] at hk
        have hkv : k = ⟨natOfBeBytes b, hr⟩ := by
          cases hk
          rfl
        subst hkv
        refine ⟨rfl, ?_⟩
        show beBytesOfNat 32 (natOfBeBytes b) = b
        have : b.length = 32 := by omega
        rw [← this]
        exact beBytesOfNat_natOfBeBytes b hb
      · rw [dif_neg hr] at hk; exact absurd hk (by simp)
  · intro e he
    unfold PrivateKey.from_bytes at he
    by_cases hl : b.length ≠ 32
    · rw [if_pos hl] at he
      cases he
      rfl
    · rw [if_neg hl] at he
      by_cases hr : 0 < natOfBeBytes b ∧ natOfBeBytes b < secpN
      · rw [dif_pos hr] at he; exact absurd he (by simp)
      · rw [dif_neg hr] at he
        cases he
        rfl

theorem from_bytes_spec_witness :
    (∀ x ∈ beBytesOfNat 32 5, x < 256) ∧
    ((∃ k, PrivateKey.from_bytes (beBytesOfNat 32 5) = .ok k) ↔
      ((beBytesOfNat 32 5).length = 32 ∧
        0 < natOfBeBytes (beBytesOfNat 32 5) ∧
        natOfBeBytes (beBytesOfNat 32 5) < secpN)) :=
  ⟨by decide, (from_bytes_spec (beBytesOfNat 32 5) (by decide)).1⟩

/-- Kind of the outcome of Wallet::from_seed: true when it is the bip44
InvalidSeed error. -/
def walletResultIsInvalidSeed : Except Bip44Error Wallet → Bool
  | .error e => e.isInvalidSeed
  | .ok _ => false

/-- C6 (amended): master-key generation accepts only seeds of sixteen to
sixty-four bytes; out-of-range seeds make ExtendedPrivateKey::from_seed
fail with the bip32 InvalidSeed error, while Wallet::from_seed reports its
own InvalidSeed only for the empty seed and wraps every other from_seed
failure as a KeyDerivation error. -/
theorem seed_length_validation (ho : HashOps) (seed : List Nat)
    (net : Network) :
    ((ExtendedPrivateKey.from_seed ho seed net).isOk = true →
      16 ≤ seed.length ∧ seed.length ≤ 64) ∧
    (seed.length < 16 ∨ 64 < seed.length →
      ExtendedPrivateKey.from_seed ho seed net =
        .error (.invalidSeed "Seed length must be between 16 and 64 bytes") ∧
      (seed.length = 0 →
        Wallet.from_seed ho seed net =
          .error (.invalidSeed "Seed cannot be empty")) ∧
      (seed.length ≠ 0 →
        Wallet.from_seed ho seed net = .error (.keyDerivation
          ("Failed to derive master key: " ++
            (Bip32Error.invalidSeed
              "Seed length must be between 16 and 64 bytes").display)))) := by
  constructor
  · intro hok
    by_contra hrange
    unfold ExtendedPrivateKey.from_seed at hok
    rw [if_pos (by omega)] at hok
    simp [Except.isOk, Except.toBool] at hok
  · intro hrange
    have hfail : ExtendedPrivateKey.from_seed ho seed net =
        .error (.invalidSeed "Seed length must be between 16 and 64 bytes") := by
      unfold ExtendedPrivateKey.from_seed
      rw [if_pos hrange]
    refine ⟨hfail, ?_, ?_⟩
    · intro h0
      unfold Wallet.from_seed
      rw [if_pos (by simpa [List.isEmpty_iff_length_eq_zero] using h0)]
    · intro h0
      unfold Wallet.from_seed
      rw [if_neg (by simpa [List.isEmpty_iff_length_eq_zero] using h0), hfail]

theorem seed_length_validation_witness :
    ((List.replicate 10 0).length < 16 ∨ 64 < (List.replicate 10 0).length) ∧
    ExtendedPrivateKey.from_seed realHashOps (List.replicate 10 0)
        .bitcoinMainnet =
      .error (.invalidSeed "Seed length must be between 16 and 64 bytes") :=
  ⟨by decide,
    ((seed_length_validation realHashOps (List.replicate 10 0)
      .bitcoinMainnet).2 (by decide)).1⟩

/-- C6 counterexample to the claim as stated: the ten-byte zero seed is
shorter than sixteen bytes, Wallet::from_seed does fail on it, but with
the KeyDerivation wrapper, not with the InvalidSeed error the claim
names. -/
theorem seed_length_claim_counterexample :
    (Wallet.from_seed realHashOps (List.replicate 10 0)
      .bitcoinMainnet).isOk = false ∧
    walletResultIsInvalidSeed
      (Wallet.from_seed realHashOps (List.replicate 10 0)
        .bitcoinMainnet) = false := by
  constructor <;> rfl

/-! Section 12: length facts about the hash and bit pipelines, used by the
mnemonic and codec claims. -/

theorem length_bytesToBits (bs : List Nat) :
    (Bip39.bytesToBits bs).length = 8 * bs.length := by
  induction bs with
  | nil => simp [Bip39.bytesToBits]
  | cons b rest ih =>
    simp only [Bip39.bytesToBits, List.flatMap_cons, List.length_append,
      List.length_cons]
    simp only [Bip39.bytesToBits] at ih
    rw [ih]
    simp [Bip39.byteBits]
    ring

theorem foldl_length_step {α : Type} (g : List Nat → α → List Nat)
    (hg : ∀ w a, (g w a).length = w.length + 1) :
    ∀ (l : List α) (ws : List Nat),
      (l.foldl g ws).length = ws.length + l.length := by
  intro l
  induction l with
  | nil => intro ws; simp
  | cons x xs ih =>
    intro ws
    simp only [List.foldl_cons, ih, hg, List.length_cons]
    omega

theorem length_schedule256 (ws : List Nat) :
    (schedule256 ws).length = ws.length + 48 := by
  unfold schedule256
  rw [foldl_length_step _ (by intro w a; simp)]
  simp

theorem length_step256 (st : List Nat) (kw : Nat × Nat) :
    (step256 st kw).length = 8 := rfl

theorem foldl_step256_length :
    ∀ (l : List (Nat × Nat)) (st : List Nat), l ≠ [] →
      (l.foldl step256 st).length = 8 := by
  intro l
  induction l with
  | nil => intro st h; exact absurd rfl h
  | cons x xs ih =>
    intro st _
    by_cases hxs : xs = []
    · subst hxs; simp [length_step256]
    · simp only [List.foldl_cons]
      exact ih _ hxs

theorem length_sha256Compress (H block : List Nat) (hH : H.length = 8) :
    (sha256Compress H block).length = 8 := by
  unfold sha256Compress
  rw [List.length_zipWith, hH]
  have hzip : 0 < (k256.zip (schedule256 block)).length := by
    rw [List.length_zip, length_schedule256]
    have hk : k256.length = 64 := by decide
    rw [hk]
    omega
  rw [foldl_step256_length _ _ (by
    intro hcontra
    rw [hcontra] at hzip
    simp at hzip)]
  omega

theorem length_sha256BlocksAux :
    ∀ (fuel : Nat) (st ws : List Nat), st.length = 8 →
      (sha256BlocksAux fuel st ws).length = 8 := by
  intro fuel
  induction fuel with
  | zero => intro st ws h; exact h
  | succ f ih =>
    intro st ws h
    unfold sha256BlocksAux
    by_cases hw : ws.length < 16
    · rw [if_pos hw]; exact h
    · rw [if_neg hw]
      exact ih _ _ (length_sha256Compress st _ h)

theorem length_flatMap_beBytes (w : Nat) (l : List Nat) :
    (l.flatMap (beBytesOfNat w)).length = w * l.length := by
  induction l with
  | nil => simp
  | cons x xs ih =>
    simp only [List.flatMap_cons, List.length_append, ih,
      length_beBytesOfNat, List.length_cons]
    ring

theorem length_sha256 (msg : List Nat) : (sha256 msg).length = 32 := by
  unfold sha256
  rw [length_flatMap_beBytes, length_sha256BlocksAux _ _ _ (by decide)]

theorem mem_sha256_lt (msg : List Nat) : ∀ b ∈ sha256 msg, b < 256 := by
  intro b hb
  unfold sha256 at hb
  rw [List.mem_flatMap] at hb
  obtain ⟨w, _, hbw⟩ := hb
  exact mem_beBytesOfNat_lt 4 w b hbw

theorem length_group11Aux :
    ∀ (fuel : Nat) (bs : List Bool), bs.length ≤ 11 * fuel →
      (Bip39.group11Aux fuel bs).length = bs.length / 11 := by
  intro fuel
  induction fuel with
  | zero =>
    intro bs h
    have h0 : bs.length = 0 := by omega
    unfold Bip39.group11Aux
    simp [h0]
  | succ f ih =>
    intro bs h
    unfold Bip39.group11Aux
    by_cases hlt : bs.length < 11
    · rw [if_pos hlt]
      simp [Nat.div_eq_of_lt hlt]
    · rw [if_neg hlt, List.length_cons, ih _ (by simp; omega)]
      rw [List.length_drop, eq_comm,
        Nat.div_eq_sub_div (by omega) (by omega)]

theorem length_group11 (bs : List Bool) :
    (Bip39.group11 bs).length = bs.length / 11 :=
  length_group11Aux bs.length bs (by omega)

theorem mnemonic_indices_length (e : List Nat) :
    (Bip39.group11 (Bip39.bytesToBits e ++
      (Bip39.bytesToBits (sha256 e)).take (e.length * 8 / 32))).length =
    (8 * e.length + min (e.length * 8 / 32) 256) / 11 := by
  rw [length_group11, List.length_append, length_bytesToBits,
    List.length_take, length_bytesToBits, length_sha256]

/-- C8: Mnemonic::new succeeds exactly on entropy of sixteen, twenty,
twenty-four, twenty-eight or thirty-two bytes; on success the word count
follows the BIP-39 formula, the stored entropy is the input, and the
modelled phrase has exactly that many word indices; any other length
fails with InvalidEntropyLength reporting the length. -/
theorem mnemonic_new_spec (e : List Nat) (L : Bip39.Language) :
    ((∃ m, Bip39.Mnemonic.new e L = .ok m) ↔
      e.length ∈ [16, 20, 24, 28, 32]) ∧
    (∀ m, Bip39.Mnemonic.new e L = .ok m →
      m.entropy = e ∧
      m.word_count.toNat = (8 * e.length + 8 * e.length / 32) / 11 ∧
      m.wordIndices.length = m.word_count.toNat) ∧
    (e.length ∉ [16, 20, 24, 28, 32] →
      Bip39.Mnemonic.new e L = .error (.invalidEntropyLength e.length)) := by
  by_cases hmem : e.length ∈ [16, 20, 24, 28, 32]
  · have hmem2 := hmem
    simp only [List.mem_cons, List.not_mem_nil, or_false] at hmem2
    obtain ⟨wc, hwc, htoNat, hlen11⟩ :
        ∃ wc, Bip39.WordCount.from_entropy_length e.length = .ok wc ∧
          wc.toNat = (8 * e.length + 8 * e.length / 32) / 11 ∧
          (8 * e.length + min (e.length * 8 / 32) 256) / 11 = wc.toNat := by
      rcases hmem2 with h | h | h | h | h <;> rw [h] <;>
        exact ⟨_, rfl, by norm_num [Bip39.WordCount.toNat],
          by norm_num [Bip39.WordCount.toNat]⟩
    have hnew : Bip39.Mnemonic.new e L = .ok (Bip39.Mnemonic.mk
        (Bip39.group11 (Bip39.bytesToBits e ++
          (Bip39.bytesToBits (sha256 e)).take (e.length * 8 / 32))) L e wc) := by
      unfold Bip39.Mnemonic.new
      rw [hwc]
    refine ⟨⟨fun _ => hmem, fun _ => ⟨_, hnew⟩⟩, ?_, fun hcon => absurd hmem hcon⟩
    intro m hm
    rw [hnew] at hm
    have hm2 : m = Bip39.Mnemonic.mk
        (Bip39.group11 (Bip39.bytesToBits e ++
          (Bip39.bytesToBits (sha256 e)).take (e.length * 8 / 32))) L e wc := by
      cases hm
      rfl
    subst hm2
    refine ⟨rfl, htoNat, ?_⟩
    show (Bip39.group11 _).length = wc.toNat
    rw [mnemonic_indices_length, hlen11]
  · have hmem2 := hmem
    simp only [List.mem_cons, List.not_mem_nil, or_false, not_or] at hmem2
    obtain ⟨h16, h20, h24, h28, h32⟩ := hmem2
    have herr : Bip39.Mnemonic.new e L =
        .error (.invalidEntropyLength e.length) := by
      unfold Bip39.Mnemonic.new Bip39.WordCount.from_entropy_length
      rw [if_neg h16, if_neg h20, if_neg h24, if_neg h28, if_neg h32]
    refine ⟨⟨fun hok => ?_, fun hc => absurd hc hmem⟩,
      fun m hm => ?_, fun _ => herr⟩
    · obtain ⟨m, hm⟩ := hok
      rw [herr] at hm
      exact absurd hm (by simp)
    · rw [herr] at hm
      exact absurd hm (by simp)

theorem mnemonic_new_spec_witness :
    (List.replicate 16 7).length ∈ [16, 20, 24, 28, 32] ∧
    (∃ m, Bip39.Mnemonic.new (List.replicate 16 7) Bip39.Language.english =
      .ok m) :=
  ⟨by decide,
    (mnemonic_new_spec (List.replicate 16 7) Bip39.Language.english).1.mpr
      (by decide)⟩

/-- Contract law of the curve primitives (spec section 6 semantics):
tweaking the point of a valid scalar by a reduced scalar is the point of
the modular sum, or none exactly when the sum vanishes. -/
def CurveTweakLaw {Point : Type} (co : CurveOps Point) : Prop :=
  ∀ a t : Nat, 0 < a → a < secpN → t < secpN →
    co.pubTweakAdd (co.pubFromScalar a) t =
      if (a + t) % secpN = 0 then none
      else some (co.pubFromScalar ((a + t) % secpN))

theorem toyCurveOps_law : CurveTweakLaw toyCurveOps := by
  intro a t _ ha _
  show (if (a % secpN + t) % secpN = 0 then none
    else some ((a % secpN + t) % secpN)) =
    if (a + t) % secpN = 0 then none else some ((a + t) % secpN % secpN)
  rw [Nat.mod_add_mod, Nat.mod_mod_of_dvd _ dvd_rfl]

/-- One derivation step commutes with the private-to-public conversion on
normal indices, for any curve contract satisfying the tweak law. -/
theorem ckd_step_toPublic {Point : Type} (co : CurveOps Point) (ho : HashOps)
    (hlaw : CurveTweakLaw co) (k : ExtendedPrivateKey) (i : Nat)
    (hi : i < 2 ^ 31) :
    (ckdPriv co ho k i).map (ExtendedPrivateKey.toExtendedPublicKey co) =
      ckdPub co ho (k.toExtendedPublicKey co) i := by
  have hpow : (2 : Nat) ^ 31 = 0x80000000 := by norm_num
  have hhard : ¬(0x80000000 ≤ i) := by omega
  unfold ckdPriv ckdPub ExtendedPrivateKey.toExtendedPublicKey
  simp only [hhard, if_false]
  by_cases hd : 255 ≤ k.depth
  · rw [if_pos hd, if_pos hd]
    rfl
  · rw [if_neg hd, if_neg hd]
    set IL := natOfBeBytes
      ((ho.hmac k.chain_code
        (co.serializeCompressed (co.pubFromScalar k.private_key.val) ++
          beBytesOfNat 4 i)).take 32) with hIL
    by_cases hr : secpN ≤ IL
    · rw [if_pos hr, if_pos hr]
      rfl
    · rw [if_neg hr, if_neg hr]
      have hlaw2 := hlaw k.private_key.val IL k.private_key.property.1
        k.private_key.property.2 (by omega)
      rw [hlaw2]
      by_cases hz : (IL + k.private_key.val) % secpN = 0
      · rw [dif_pos hz, Nat.add_comm k.private_key.val IL, hz]
        rfl
      · rw [dif_neg hz, Nat.add_comm k.private_key.val IL]
        rw [if_neg hz]
        rfl

/-- C1: for every curve contract satisfying the tweak law, every hash
contract, every extended private key and every derivation path free of
hardened segments, converting to the extended public key and deriving
equals deriving privately and then converting, as full Except results;
applied to every prefix of the path (each prefix is itself hardened-free)
this gives bit-for-bit agreement at every intermediate node. -/
theorem derive_then_to_public_comm {Point : Type} (co : CurveOps Point)
    (ho : HashOps) (hlaw : CurveTweakLaw co) (k : ExtendedPrivateKey)
    (path : List Nat) (hpath : ∀ i ∈ path, i < 2 ^ 31) :
    (derivePathPriv co ho k path).map
      (ExtendedPrivateKey.toExtendedPublicKey co) =
      derivePathPub co ho (k.toExtendedPublicKey co) path := by
  induction path generalizing k with
  | nil => rfl
  | cons i rest ih =>
    have hstep := ckd_step_toPublic co ho hlaw k i (hpath i (by simp))
    unfold derivePathPriv derivePathPub
    cases hck : ckdPriv co ho k i with
    | error e =>
      rw [hck] at hstep
      rw [← hstep]
      rfl
    | ok k2 =>
      rw [hck] at hstep
      rw [← hstep]
      exact ih k2 (fun x hx => hpath x (by simp [hx]))

/-- A sample extended private key for witnessing. -/
def sampleExtPriv : ExtendedPrivateKey :=
  { network := .bitcoinMainnet, depth := 0,
    parent_fingerprint := [0, 0, 0, 0], child_number := 0,
    chain_code := List.replicate 32 0, private_key := pkOne }

theorem derive_then_to_public_comm_witness :
    (∀ i ∈ ([0, 5] : List Nat), i < 2 ^ 31) ∧
    (derivePathPriv toyCurveOps realHashOps sampleExtPriv [0, 5]).map
      (ExtendedPrivateKey.toExtendedPublicKey toyCurveOps) =
      derivePathPub toyCurveOps realHashOps
        (sampleExtPriv.toExtendedPublicKey toyCurveOps) [0, 5] :=
  ⟨by decide,
    derive_then_to_public_comm toyCurveOps realHashOps toyCurveOps_law
      sampleExtPriv [0, 5] (by decide)⟩

/-! Section 13: Base58Check roundtrip. -/

theorem ofDigits_cons_pos (base x : Nat) (xs : List Nat) (hx : x ≠ 0) :
    0 < ofDigits base (x :: xs) ∨ base = 0 := by
  rcases Nat.eq_zero_or_pos base with hb | hb
  · right; exact hb
  · left
    simp only [ofDigits]
    have : 0 < base ^ xs.length := pow_pos hb _
    have : 0 < x * base ^ xs.length := Nat.mul_pos (by omega) this
    omega

theorem b58ValOf_alphabet :
    ∀ d, d < 58 → b58ValOf (b58Alphabet.getD d '1') = some d := by decide

theorem alphabet_getD_ne_one :
    ∀ d, d < 58 → d ≠ 0 → b58Alphabet.getD d '1' ≠ '1' := by decide

theorem mapM_b58ValOf_map (ds : List Nat) (hds : ∀ d ∈ ds, d < 58) :
    (ds.map (fun d => b58Alphabet.getD d '1')).mapM b58ValOf = some ds := by
  induction ds with
  | nil => rfl
  | cons d rest ih =>
    simp only [List.map_cons, List.mapM_cons,
      b58ValOf_alphabet d (hds d (by simp)),
      ih (fun x hx => hds x (by simp [hx])), Option.bind_eq_bind,
      Option.some_bind, Option.pure_def]

theorem b58Decode_b58Encode (bytes : List Nat)
    (hb : ∀ b ∈ bytes, b < 256) (hne : bytes ≠ [])
    (hhd : bytes.head? ≠ some 0) :
    b58Decode (b58Encode bytes) = some bytes := by
  obtain ⟨x, xs, rfl⟩ : ∃ x xs, bytes = x :: xs := by
    cases bytes with
    | nil => exact absurd rfl hne
    | cons x xs => exact ⟨x, xs, rfl⟩
  have hx0 : x ≠ 0 := by
    intro h
    rw [List.head?_cons, h] at hhd
    exact hhd rfl
  have hN : 0 < natOfBeBytes (x :: xs) := by
    rcases ofDigits_cons_pos 256 x xs hx0 with h | h
    · exact h
    · omega
  set N := natOfBeBytes (x :: xs) with hNdef
  have henc : b58Encode (x :: xs) =
      (toDigits 58 N).map (fun d => b58Alphabet.getD d '1') := by
    unfold b58Encode
    rw [show ((x :: xs).takeWhile (fun b => b == 0)) = [] from by
      simp [List.takeWhile_cons, hx0]]
    simp
  rw [henc]
  have hdigne : toDigits 58 N ≠ [] :=
    toDigitsAux_ne_nil 58 N N (by omega) (Nat.le_refl N)
  obtain ⟨d0, ds, hds⟩ : ∃ d0 ds, toDigits 58 N = d0 :: ds := by
    cases hD : toDigits 58 N with
    | nil => exact absurd hD hdigne
    | cons d0 ds => exact ⟨d0, ds, rfl⟩
  have hd0ne : d0 ≠ 0 := by
    have hh := head_toDigitsAux_ne_zero 58 (by omega) N N (by omega)
      (Nat.le_refl N)
    rw [show toDigitsAux 58 N N = toDigits 58 N from rfl, hds] at hh
    simp only [List.head?_cons] at hh
    intro h
    exact hh (by rw [h])
  have hd0lt : d0 < 58 :=
    mem_toDigitsAux_lt 58 (by omega) N N d0
      (by rw [show toDigitsAux 58 N N = toDigits 58 N from rfl, hds]; simp)
  have hdlt : ∀ d ∈ d0 :: ds, d < 58 := by
    intro d hd
    rw [← hds] at hd
    exact mem_toDigitsAux_lt 58 (by omega) N N d hd
  have hchar : ((b58Alphabet.getD d0 '1') == '1') = false := by
    simp only [beq_eq_false_iff_ne, ne_eq]
    exact alphabet_getD_ne_one d0 hd0lt hd0ne
  have hmapm := mapM_b58ValOf_map (d0 :: ds) hdlt
  rw [hds]
  unfold b58Decode
  simp only [List.map_cons, List.takeWhile_cons, hchar, Bool.false_eq_true,
    if_false, List.length_nil, List.drop_zero, List.replicate_zero,
    List.nil_append]
  simp only [List.map_cons] at hmapm
  rw [hmapm]
  rw [show Option.map (fun ds => toDigits 256 (ofDigits 58 ds))
      (some (d0 :: ds)) =
      some (toDigits 256 (ofDigits 58 (d0 :: ds))) from rfl]
  rw [← hds, ofDigits_toDigits 58 (by omega) N]
  rw [show toDigits 256 N = toDigitsAux 256 N N from rfl, hNdef,
    show natOfBeBytes (x :: xs) = ofDigits 256 (x :: xs) from rfl]
  rw [toDigitsAux_ofDigits 256 (by omega) (x :: xs) hb
    (by
      rw [List.head?_cons]
      intro h
      rw [Option.some.injEq] at h
      exact hx0 h)
    (ofDigits 256 (x :: xs)) (Nat.le_refl _)]

/-! Section 14: the codec roundtrip. -/

theorem versionLookup_versionBytes (net : Network) (kt : KeyType) :
    versionLookup (versionBytes net kt) = some (net, kt) := by
  cases net <;> cases kt <;> rfl

theorem length_versionBytes (net : Network) (kt : KeyType) :
    (versionBytes net kt).length = 4 := by
  cases net <;> cases kt <;> rfl

theorem mem_versionBytes_lt (net : Network) (kt : KeyType) :
    ∀ b ∈ versionBytes net kt, b < 256 := by
  cases net <;> cases kt <;> decide

theorem versionBytes_head (net : Network) (kt : KeyType) :
    ∃ t, versionBytes net kt = 4 :: t := by
  cases net <;> cases kt <;> exact ⟨_, rfl⟩

/-- Well-formedness of extended-key metadata: field widths as in the Rust
types, byte ranges, and the depth-zero master invariant of the spec. -/
def wfMeta (depth : Nat) (fp : List Nat) (cn : Nat) (cc : List Nat) : Prop :=
  depth < 256 ∧ fp.length = 4 ∧ (∀ b ∈ fp, b < 256) ∧
  cn < 4294967296 ∧ cc.length = 32 ∧ (∀ b ∈ cc, b < 256) ∧
  (depth = 0 → fp = [0, 0, 0, 0] ∧ cn = 0)

instance (depth : Nat) (fp : List Nat) (cn : Nat) (cc : List Nat) :
    Decidable (wfMeta depth fp cn cc) := by
  unfold wfMeta
  infer_instance

/-- Well-formedness of either flavour of extended key. -/
def wfAnyExtendedKey : AnyExtendedKey → Prop
  | .inl k => wfMeta k.depth k.parent_fingerprint k.child_number k.chain_code
  | .inr K => wfMeta K.depth K.parent_fingerprint K.child_number K.chain_code

instance (E : AnyExtendedKey) : Decidable (wfAnyExtendedKey E) := by
  cases E <;> (unfold wfAnyExtendedKey; infer_instance)

theorem drop_append_exact {α : Type} (l1 l2 : List α) (n : Nat)
    (h : l1.length = n) : (l1 ++ l2).drop n = l2 := by
  subst h
  exact List.drop_left l1 l2

theorem take_append_exact {α : Type} (l1 l2 : List α) (n : Nat)
    (h : l1.length = n) : (l1 ++ l2).take n = l1 := by
  subst h
  exact List.take_left l1 l2

theorem secpN_lt_pow : secpN < 256 ^ 32 := by decide

theorem parse_serialized_fields (net : Network) (kt : KeyType) (dep : Nat)
    (fp : List Nat) (cn : Nat) (cc kd : List Nat)
    (hfp4 : fp.length = 4) (hcc32 : cc.length = 32) (hkd33 : kd.length = 33) :
    (versionBytes net kt ++
      dep :: (fp ++ beBytesOfNat 4 cn ++ cc ++ kd)).length = 78 ∧
    (versionBytes net kt ++
      dep :: (fp ++ beBytesOfNat 4 cn ++ cc ++ kd)).take 4 =
      versionBytes net kt ∧
    ((versionBytes net kt ++
      dep :: (fp ++ beBytesOfNat 4 cn ++ cc ++ kd)).drop 4).headD 0 = dep ∧
    ((versionBytes net kt ++
      dep :: (fp ++ beBytesOfNat 4 cn ++ cc ++ kd)).drop 5).take 4 = fp ∧
    ((versionBytes net kt ++
      dep :: (fp ++ beBytesOfNat 4 cn ++ cc ++ kd)).drop 9).take 4 =
      beBytesOfNat 4 cn ∧
    ((versionBytes net kt ++
      dep :: (fp ++ beBytesOfNat 4 cn ++ cc ++ kd)).drop 13).take 32 = cc ∧
    ((versionBytes net kt ++
      dep :: (fp ++ beBytesOfNat 4 cn ++ cc ++ kd)).drop 45).take 33 = kd := by
  have hver := length_versionBytes net kt
  have hbe4 : (beBytesOfNat 4 cn).length = 4 := length_beBytesOfNat 4 cn
  have h1 : versionBytes net kt ++
      dep :: (fp ++ beBytesOfNat 4 cn ++ cc ++ kd) =
      (versionBytes net kt ++ [dep]) ++
        (fp ++ (beBytesOfNat 4 cn ++ (cc ++ kd))) := by
    simp [List.append_assoc]
  have h2 : versionBytes net kt ++
      dep :: (fp ++ beBytesOfNat 4 cn ++ cc ++ kd) =
      ((versionBytes net kt ++ [dep]) ++ fp) ++
        (beBytesOfNat 4 cn ++ (cc ++ kd)) := by
    simp [List.append_assoc]
  have h3 : versionBytes net kt ++
      dep :: (fp ++ beBytesOfNat 4 cn ++ cc ++ kd) =
      (((versionBytes net kt ++ [dep]) ++ fp) ++ beBytesOfNat 4 cn) ++
        (cc ++ kd) := by
    simp [List.append_assoc]
  have h4 : versionBytes net kt ++
      dep :: (fp ++ beBytesOfNat 4 cn ++ cc ++ kd) =
      ((((versionBytes net kt ++ [dep]) ++ fp) ++ beBytesOfNat 4 cn) ++ cc)
        ++ kd := by
    simp [List.append_assoc]
  refine ⟨?_, ?_, ?_, ?_, ?_, ?_, ?_⟩
  · simp only [List.length_append, List.length_cons, hver, hfp4, hbe4,
      hcc32, hkd33]
  · rw [show (4 : Nat) = (versionBytes net kt).length from hver.symm,
      List.take_left]
  · rw [drop_append_exact _ _ 4 hver, List.headD_cons]
  · rw [h1, drop_append_exact _ _ 5 (by simp [hver]),
      take_append_exact _ _ 4 hfp4]
  · rw [h2, drop_append_exact _ _ 9 (by simp [hver, hfp4]),
      take_append_exact _ _ 4 hbe4]
  · rw [h3, drop_append_exact _ _ 13 (by simp [hver, hfp4, hbe4]),
      take_append_exact _ _ 32 hcc32]
  · rw [h4, drop_append_exact _ _ 45 (by simp [hver, hfp4, hbe4, hcc32]),
      ← hkd33, List.take_length]

theorem from_bytes_to_bytes (pk : PrivateKey) :
    PrivateKey.from_bytes pk.to_bytes = .ok pk := by
  unfold PrivateKey.from_bytes
  have hlen : (pk.to_bytes).length = 32 := length_beBytesOfNat 32 pk.val
  rw [if_neg (by omega)]
  have hval : natOfBeBytes pk.to_bytes = pk.val :=
    natOfBeBytes_beBytesOfNat 32 pk.val
      (lt_trans pk.property.2 secpN_lt_pow)
  rw [hval, dif_pos pk.property]
  exact congrArg Except.ok (Subtype.ext rfl)

theorem decode_encode_priv (k : ExtendedPrivateKey)
    (h : wfMeta k.depth k.parent_fingerprint k.child_number k.chain_code) :
    decodeExtendedKey (encodeXprv k) = .ok (.inl k) := by
  obtain ⟨net, dep, fp, cn, cc, pk⟩ := k
  obtain ⟨hdep, hfp4, hfpb, hcn, hcc32, hccb, hmaster⟩ := h
  dsimp only at hdep hfp4 hfpb hcn hcc32 hccb hmaster
  have hkd33 : ((0 :: pk.to_bytes) : List Nat).length = 33 := by
    simp [PrivateKey.to_bytes, length_beBytesOfNat]
  obtain ⟨hlen78, htake4, hdepE, hfpE, hidxE, hccE, hkdE⟩ :=
    parse_serialized_fields net .privateType dep fp cn cc
      (0 :: pk.to_bytes) hfp4 hcc32 hkd33
  set p78 := versionBytes net .privateType ++
    dep :: (fp ++ beBytesOfNat 4 cn ++ cc ++ (0 :: pk.to_bytes)) with hp78
  set chk := (sha256 (sha256 p78)).take 4 with hchk
  have hchklen : chk.length = 4 := by
    rw [hchk, List.length_take, length_sha256]
    decide
  have hfull_mem : ∀ b ∈ p78 ++ chk, b < 256 := by
    intro b hb
    rw [List.mem_append] at hb
    rcases hb with hb | hb
    · rw [hp78] at hb
      simp only [List.mem_append, List.mem_cons] at hb
      rcases hb with hb | hb | ((hb | hb) | hb) | (hb | hb)
      · exact mem_versionBytes_lt net .privateType b hb
      · omega
      · exact hfpb b hb
      · exact mem_beBytesOfNat_lt 4 cn b hb
      · exact hccb b hb
      · omega
      · exact mem_beBytesOfNat_lt 32 pk.val b hb
    · exact mem_sha256_lt _ b (List.mem_of_mem_take hb)
  obtain ⟨vt, hvt⟩ := versionBytes_head net .privateType
  have hfull_shape : p78 ++ chk = 4 :: (vt ++
      dep :: (fp ++ beBytesOfNat 4 cn ++ cc ++ (0 :: pk.to_bytes)) ++ chk) := by
    rw [hp78, hvt]
    simp [List.append_assoc]
  have hne : p78 ++ chk ≠ [] := by rw [hfull_shape]; simp
  have hhd : (p78 ++ chk).head? ≠ some 0 := by rw [hfull_shape]; simp
  have hrt := b58Decode_b58Encode (p78 ++ chk) hfull_mem hne hhd
  have hdec : decodeExtendedKey (encodeXprv
      (ExtendedPrivateKey.mk net dep fp cn cc pk)) =
      parseExtendedKeyBytes (p78 ++ chk) := by
    unfold decodeExtendedKey encodeXprv base58Check
    rw [show serialize78Priv (ExtendedPrivateKey.mk net dep fp cn cc pk) =
      p78 from rfl, ← hchk, hrt]
  rw [hdec]
  have hlenfull : (p78 ++ chk).length = 82 := by
    rw [List.length_append, hlen78, hchklen]
  have htake78 : (p78 ++ chk).take 78 = p78 := take_append_exact _ _ 78 hlen78
  have hdrop78 : (p78 ++ chk).drop 78 = chk := drop_append_exact _ _ 78 hlen78
  unfold parseExtendedKeyBytes
  rw [if_neg (show ¬((p78 ++ chk).length ≠ 82) from fun hc => hc hlenfull)]
  rw [htake78, hdrop78]
  rw [if_neg (show ¬(chk ≠ (sha256 (sha256 p78)).take 4) from
    fun hc => hc hchk)]
  rw [htake4, versionLookup_versionBytes]
  rw [hdepE, hfpE, hidxE, hccE, hkdE]
  have hcnpow : cn < 256 ^ 4 := by
    have h4 : (256 : Nat) ^ 4 = 4294967296 := by norm_num
    omega
  split
  · next heq => exact absurd heq (by simp)
  · next net2 kt2 heq =>
    rw [Option.some.injEq, Prod.mk.injEq] at heq
    obtain ⟨h1, h2⟩ := heq
    subst h1
    subst h2
    rw [if_neg (show ¬(dep = 0 ∧ (fp ≠ [0, 0, 0, 0] ∨
        natOfBeBytes (beBytesOfNat 4 cn) ≠ 0)) from by
      rintro ⟨h0, hbad⟩
      obtain ⟨hfpz, hcnz⟩ := hmaster h0
      rcases hbad with hb | hb
      · exact hb hfpz
      · exact hb (by rw [natOfBeBytes_beBytesOfNat 4 cn hcnpow, hcnz]))]
    rw [if_neg (show ¬(((0 :: pk.to_bytes) : List Nat).headD 1 ≠ 0) from
      by simp)]
    rw [show ((0 :: pk.to_bytes) : List Nat).tail = pk.to_bytes from rfl,
      from_bytes_to_bytes pk]
    rw [natOfBeBytes_beBytesOfNat 4 cn hcnpow]

theorem validCompressedPub_components (bs : List Nat)
    (h : validCompressedPub bs = true) :
    bs.length = 33 ∧ (bs.headD 0 = 2 ∨ bs.headD 0 = 3) ∧
      ∀ b ∈ bs, b < 256 := by
  cases bs with
  | nil => simp [validCompressedPub] at h
  | cons b rest =>
    unfold validCompressedPub at h
    simp only [List.head?_cons, List.tail_cons, Bool.and_eq_true,
      Bool.or_eq_true, decide_eq_true_eq, List.all_eq_true] at h
    obtain ⟨⟨⟨hlen, hhead⟩, htail⟩, _⟩ := h
    refine ⟨hlen, by simpa using hhead, ?_⟩
    intro x hx
    rcases List.mem_cons.mp hx with hx | hx
    · subst hx
      rcases hhead with h2 | h2 <;> omega
    · have := htail x hx
      simpa using this

theorem decode_encode_pub (K : ExtendedPublicKey PublicKey)
    (h : wfMeta K.depth K.parent_fingerprint K.child_number K.chain_code) :
    decodeExtendedKey (encodeXpub Subtype.val K) = .ok (.inr K) := by
  obtain ⟨net, dep, fp, cn, cc, pk2⟩ := K
  obtain ⟨hdep, hfp4, hfpb, hcn, hcc32, hccb, hmaster⟩ := h
  dsimp only at hdep hfp4 hfpb hcn hcc32 hccb hmaster
  obtain ⟨hkd33, hkdhead, hkdb⟩ :=
    validCompressedPub_components pk2.val pk2.property
  obtain ⟨hlen78, htake4, hdepE, hfpE, hidxE, hccE, hkdE⟩ :=
    parse_serialized_fields net .publicType dep fp cn cc pk2.val hfp4 hcc32
      hkd33
  set p78 := versionBytes net .publicType ++
    dep :: (fp ++ beBytesOfNat 4 cn ++ cc ++ pk2.val) with hp78
  set chk := (sha256 (sha256 p78)).take 4 with hchk
  have hchklen : chk.length = 4 := by
    rw [hchk, List.length_take, length_sha256]
    decide
  have hfull_mem : ∀ b ∈ p78 ++ chk, b < 256 := by
    intro b hb
    rw [List.mem_append] at hb
    rcases hb with hb | hb
    · rw [hp78] at hb
      simp only [List.mem_append, List.mem_cons] at hb
      rcases hb with hb | hb | ((hb | hb) | hb) | hb
      · exact mem_versionBytes_lt net .publicType b hb
      · omega
      · exact hfpb b hb
      · exact mem_beBytesOfNat_lt 4 cn b hb
      · exact hccb b hb
      · exact hkdb b hb
    · exact mem_sha256_lt _ b (List.mem_of_mem_take hb)
  obtain ⟨vt, hvt⟩ := versionBytes_head net .publicType
  have hfull_shape : p78 ++ chk = 4 :: (vt ++
      dep :: (fp ++ beBytesOfNat 4 cn ++ cc ++ pk2.val) ++ chk) := by
    rw [hp78, hvt]
    simp [List.append_assoc]
  have hne : p78 ++ chk ≠ [] := by rw [hfull_shape]; simp
  have hhd : (p78 ++ chk).head? ≠ some 0 := by rw [hfull_shape]; simp
  have hrt := b58Decode_b58Encode (p78 ++ chk) hfull_mem hne hhd
  have hdec : decodeExtendedKey (encodeXpub Subtype.val
      (ExtendedPublicKey.mk net dep fp cn cc pk2)) =
      parseExtendedKeyBytes (p78 ++ chk) := by
    unfold decodeExtendedKey encodeXpub base58Check
    rw [show serialize78Pub Subtype.val
      (ExtendedPublicKey.mk net dep fp cn cc pk2) = p78 from rfl,
      ← hchk, hrt]
  rw [hdec]
  have hlenfull : (p78 ++ chk).length = 82 := by
    rw [List.length_append, hlen78, hchklen]
  have htake78 : (p78 ++ chk).take 78 = p78 := take_append_exact _ _ 78 hlen78
  have hdrop78 : (p78 ++ chk).drop 78 = chk := drop_append_exact _ _ 78 hlen78
  unfold parseExtendedKeyBytes
  rw [if_neg (show ¬((p78 ++ chk).length ≠ 82) from fun hc => hc hlenfull)]
  rw [htake78, hdrop78]
  rw [if_neg (show ¬(chk ≠ (sha256 (sha256 p78)).take 4) from
    fun hc => hc hchk)]
  rw [htake4, versionLookup_versionBytes]
  rw [hdepE, hfpE, hidxE, hccE, hkdE]
  have hcnpow : cn < 256 ^ 4 := by
    have h4 : (256 : Nat) ^ 4 = 4294967296 := by norm_num
    omega
  split
  · next heq => exact absurd heq (by simp)
  · next net2 kt2 heq =>
    rw [Option.some.injEq, Prod.mk.injEq] at heq
    obtain ⟨h1, h2⟩ := heq
    subst h1
    subst h2
    rw [if_neg (show ¬(dep = 0 ∧ (fp ≠ [0, 0, 0, 0] ∨
        natOfBeBytes (beBytesOfNat 4 cn) ≠ 0)) from by
      rintro ⟨h0, hbad⟩
      obtain ⟨hfpz, hcnz⟩ := hmaster h0
      rcases hbad with hb | hb
      · exact hb hfpz
      · exact hb (by rw [natOfBeBytes_beBytesOfNat 4 cn hcnpow, hcnz]))]
    rw [if_neg (show ¬¬(pk2.val.headD 0 = 2 ∨ pk2.val.headD 0 = 3) from
      not_not_intro hkdhead)]
    rw [dif_pos pk2.property]
    rw [natOfBeBytes_beBytesOfNat 4 cn hcnpow]
    rfl

/-- C4 (amended): for every well-formed extended key, private or public
variant (field widths as in the Rust types, and metadata satisfying the
depth-zero master invariant), decoding the Base58Check serialization
yields the key again with every field preserved.  The unamended claim over
all constructible keys fails, because the unvalidated constructor admits a
depth-zero key with a non-zero parent fingerprint whose encoding decode
rejects with InvalidMasterMetadata. -/
theorem decode_encode_roundtrip (E : AnyExtendedKey)
    (hE : wfAnyExtendedKey E) :
    decodeExtendedKey (encodeAnyExtendedKey E) = .ok E := by
  cases E with
  | inl k => exact decode_encode_priv k hE
  | inr K => exact decode_encode_pub K hE

/-- The compressed generator point as a validated public key. -/
def gCompressedPub : PublicKey := ⟨serializeCPoint secpG, by decide⟩

/-- A well-formed master extended public key. -/
def goodMasterPub : ExtendedPublicKey PublicKey :=
  ExtendedPublicKey.new .bitcoinMainnet 0 [0, 0, 0, 0] 0
    (List.replicate 32 0) gCompressedPub

/-- A depth-zero extended public key with a non-zero parent fingerprint,
constructible because the constructor validates nothing. -/
def badMasterPub : ExtendedPublicKey PublicKey :=
  ExtendedPublicKey.new .bitcoinMainnet 0 [0, 0, 0, 1] 0
    (List.replicate 32 0) gCompressedPub

theorem decode_encode_roundtrip_witness :
    wfAnyExtendedKey (.inr goodMasterPub) ∧
    decodeExtendedKey (encodeAnyExtendedKey (.inr goodMasterPub)) =
      .ok (.inr goodMasterPub) :=
  ⟨by decide, decode_encode_roundtrip (.inr goodMasterPub) (by decide)⟩

/-- C4 counterexample to the claim as universally stated: decoding the
encoding of the constructible depth-zero key with parent fingerprint
00 00 00 01 fails with InvalidMasterMetadata instead of returning the
key. -/
theorem decode_encode_claim_counterexample :
    decodeExtendedKey (encodeAnyExtendedKey (.inr badMasterPub)) =
      .error .invalidMasterMetadata := by
  rfl

set_option maxRecDepth 100000 in
set_option maxHeartbeats 4000000 in
/-- C3: generating the master extended private key from the sixteen-byte
test seed on Bitcoin mainnet and serializing it yields exactly the
canonical xprv string, and serializing its extended public key yields
exactly the canonical xpub string (BIP-32 test vector 1, scenario A),
computed through the concrete HMAC-SHA512, secp256k1 and Base58Check
models. -/
theorem master_from_seed_vector1 :
    (ExtendedPrivateKey.from_seed realHashOps testSeed1 .bitcoinMainnet).map
      (fun k => (xprvStringOf k,
        xpubStringOf (k.toExtendedPublicKey realCurveOps))) =
    .ok ("xprv9s21ZrQH143K3QTDL4LXw2F7HEK3wJUD2nW2nRk4stbPy6cq3jPPqjiChkVvvNKmPGJxWUtg6LnF5kejMRNNU3TGtRBeJgk33yuGBxrMPHi",
      "xpub661MyMwAqRbcFtXgS5sYJABqqG9YLmC4Q1Rdap9gSE8NqtwybGhePY2gZ29ESFjqJoCu1Rupje8YtGqsefD265TMg7usUDFdp6W1EGMcet8") := by
  rfl
